import Mathlib

/-!
Bookshelf cache (`Question#4.c`), line buffer (`Question#5.c`) and fuel
simulation (`Question#2.c`).  This first part is the bookshelf cache.

Shallow embedding of the `ADD` / `ACCESS` command loop of `main` in
`src/Question#4.c`, and proofs of the properties the specification states
about it.

Modelling conventions.

* C `int` values are modelled by `Int`.  The only arithmetic in the program is
  `time++`, `count++` and `count--`; `time` starts at 1 and is incremented at
  most once per command, and the loop processes at most `Q ≤ INT_MAX`
  commands, so no timestamp that is stored exceeds `INT_MAX`.
* The local array `struct Book shelf[100]` together with the counter `count`
  is modelled by the list of the live cells `shelf[0], …, shelf[count-1]`;
  `count` is the length of that list.  Cells at indices `≥ count` are never
  read by the program.  `add`, `access`, `step` and `run` give the effect of
  the commands on the live cells.  The array has 100 cells: `stepIndices`
  lists every subscript that a command uses, and `stepChecked` and
  `runChecked` are defined only as long as all of them lie in `0 .. 99`.
  `Reachable` and the results about runs of commands are stated through these.
* With `capacity = 0` the first `ADD` decrements `count` below zero and writes
  `shelf[-1]`; `stepChecked` is undefined there.
* The variable `found` (`-1` or an index) is modelled by `Option Nat`.
* Every `for` loop is a recursive function whose first numeric argument is
  the number of iterations that remain, or a recursion over the cells that
  remain to be visited.
-/

namespace Bookshelf

/-- The record `struct Book` (lines 4-8): smaller `lastAccess` means less recently
accessed. -/
structure Book where
  id : Int
  popularity : Int
  lastAccess : Int
deriving DecidableEq, Repr, Inhabited

/-- The local variables of `main` that survive an iteration of the command loop:
`capacity`, the live cells `shelf[0..count)` and the access timestamp `time`. -/
structure Cache where
  capacity : Int
  shelf : List Book
  time : Int
deriving DecidableEq, Repr

/-- State before the first command (lines 14-16): `count = 0`, `time = 1`. -/
def init (capacity : Int) : Cache :=
  { capacity := capacity, shelf := [], time := 1 }

/-- The search loop of lines 28-35 and 68-73, started at index `j` on the cells
`shelf[j..count)`: the first index whose `id` equals `x`, if any. -/
def foundFrom (x : Int) : List Book → Nat → Option Nat
  | [], _ => none
  | b :: rest, j => if b.id = x then some j else foundFrom x rest (j + 1)

/-- Value of `found` after the search loop (`none` stands for `-1`). -/
def found (shelf : List Book) (x : Int) : Option Nat :=
  foundFrom x shelf 0

/-- The scan of lines 44-47 with `n` iterations left, loop index `j` and current
`minIndex`. -/
def minIndexLoop (shelf : List Book) : Nat → Nat → Nat → Nat
  | 0, _, minIndex => minIndex
  | n + 1, j, minIndex =>
    if (shelf.getD j default).lastAccess < (shelf.getD minIndex default).lastAccess then
      minIndexLoop shelf n (j + 1) j
    else
      minIndexLoop shelf n (j + 1) minIndex

/-- Lines 43-47: `minIndex = 0; for (j = 1; j < count; j++) …`. -/
def minIndex (shelf : List Book) : Nat :=
  minIndexLoop shelf (shelf.length - 1) 1 0

/-- The compaction loop of lines 50-52 with `n` iterations left at loop index `j`:
`shelf[j] = shelf[j + 1]`. -/
def shiftLoop : Nat → Nat → List Book → List Book
  | 0, _, shelf => shelf
  | n + 1, j, shelf => shiftLoop n (j + 1) (shelf.set j (shelf.getD (j + 1) default))

/-- Lines 50-53: `for (j = minIndex; j < count - 1; j++) shelf[j] = shelf[j + 1];`
followed by `count--`, which drops the last live cell. -/
def removeAt (shelf : List Book) (minIndex : Nat) : List Book :=
  (shiftLoop (shelf.length - 1 - minIndex) minIndex shelf).dropLast

/-- The `ADD x y` branch (lines 22-61): its effect on the live cells. The
subscripts it uses are listed by `addIndices`; the command is defined on the
array of 100 cells only when they all lie in `0 .. 99` (see `stepChecked`). -/
def add (s : Cache) (x y : Int) : Cache :=
  match found s.shelf x with
  | some j =>
    { s with
      shelf := s.shelf.set j
        { s.shelf.getD j default with popularity := y, lastAccess := s.time }
      time := s.time + 1 }
  | none =>
    let shelf :=
      if (s.shelf.length : Int) = s.capacity then removeAt s.shelf (minIndex s.shelf)
      else s.shelf
    { s with
      shelf := shelf ++ [{ id := x, popularity := y, lastAccess := s.time }]
      time := s.time + 1 }

/-- The `ACCESS x` branch (lines 63-81): the new state and the number printed
(`-1` on a miss, the stored popularity on a hit). -/
def access (s : Cache) (x : Int) : Cache × Int :=
  match found s.shelf x with
  | none => (s, -1)
  | some j =>
    ({ s with
       shelf := s.shelf.set j { s.shelf.getD j default with lastAccess := s.time }
       time := s.time + 1 },
     (s.shelf.getD j default).popularity)

/-- A command read by the loop of line 18: the word `ADD` followed by two
integers, or the word `ACCESS` followed by one. Any other word takes neither
branch and changes nothing. -/
inductive Op where
  | ADD (x y : Int)
  | ACCESS (x : Int)
deriving DecidableEq, Repr

/-- One iteration of the command loop: the state afterwards. -/
def step (s : Cache) : Op → Cache
  | Op.ADD x y => add s x y
  | Op.ACCESS x => (access s x).1

/-- The state after the commands `ops` have been processed in order. -/
def run (s : Cache) : List Op → Cache
  | [] => s
  | op :: ops => run (step s op) ops

/-- The numbers printed while the commands `ops` are processed in order. -/
def printed (s : Cache) : List Op → List Int
  | [] => []
  | Op.ADD x y :: ops => printed (add s x y) ops
  | Op.ACCESS x :: ops => (access s x).2 :: printed (access s x).1 ops

/-- The properties that hold of every state the command loop reaches when it is
started with a positive capacity: at most `capacity` live cells, pairwise
distinct ids, pairwise distinct timestamps, each older than the clock. -/
def Inv (s : Cache) : Prop :=
  1 ≤ s.capacity ∧ (s.shelf.length : Int) ≤ s.capacity ∧
  (s.shelf.map Book.id).Nodup ∧ (s.shelf.map Book.lastAccess).Nodup ∧
  ∀ b ∈ s.shelf, b.lastAccess < s.time

/-- A command that, processed in state `s`, neither evicts a cell nor gives a new
timestamp to a cell whose id differs from `x`: an `ACCESS` of `x` or of an absent
id, an `ADD` of `x`, or an `ADD` of an absent id while the shelf is not full. -/
def quiet (x : Int) (s : Cache) : Op → Bool
  | Op.ACCESS z => decide (z = x) || (found s.shelf z).isNone
  | Op.ADD z _ =>
    decide (z = x) ||
      ((found s.shelf z).isNone && decide ((s.shelf.length : Int) ≠ s.capacity))

/-- Every command of `ops`, processed in order from `s`, is quiet for `x`. -/
def quietRun (x : Int) (s : Cache) : List Op → Bool
  | [] => true
  | op :: ops => quiet x s op && quietRun x (step s op) ops

/-- Some cell with id `x` is strictly younger than some cell of the shelf. -/
def Shielded (x : Int) (s : Cache) : Prop :=
  ∃ bx bw, bx ∈ s.shelf ∧ bw ∈ s.shelf ∧ bx.id = x ∧ bw.lastAccess < bx.lastAccess

end Bookshelf

namespace Bookshelf

end Bookshelf

namespace Bookshelf

/-- The cells that successive insertions of the pairs `(id, popularity)` append
when the clock shows `t` at the first of them. -/
def fill (t : Int) : List (Int × Int) → List Book
  | [] => []
  | q :: rest => { id := q.1, popularity := q.2, lastAccess := t } :: fill (t + 1) rest

/-- The pairs `(id, popularity)` of the live cells, in storage order. -/
def view (s : Cache) : List (Int × Int) :=
  s.shelf.map (fun b => (b.id, b.popularity))

/-- The number an `ACCESS x` prints, read off the pairs `(id, popularity)`: the
popularity of the first pair with id `x`, or `-1`. -/
def lookupPairs (x : Int) : List (Int × Int) → Int
  | [] => -1
  | q :: rest => if q.1 = x then q.2 else lookupPairs x rest

end Bookshelf

namespace Bookshelf

/-! Indices of `shelf` used by one command.  Each function below follows the
loop of the same name above and lists, in program order, the subscripts at which
that loop reads or writes the array. -/

/-- Subscripts read by the search loop of lines 28-35 and 68-73 (`shelf[j].id`),
started at index `j` on the cells `shelf[j..count)`. -/
def foundReads (x : Int) : List Book → Nat → List Int
  | [], _ => []
  | b :: rest, j => (j : Int) :: (if b.id = x then [] else foundReads x rest (j + 1))

/-- Subscripts read by the scan of lines 44-47: every iteration reads `shelf[j]`
and `shelf[minIndex]`. -/
def minIndexReads (shelf : List Book) : Nat → Nat → Nat → List Int
  | 0, _, _ => []
  | n + 1, j, minIndex =>
    (j : Int) :: (minIndex : Int) ::
      (if (shelf.getD j default).lastAccess < (shelf.getD minIndex default).lastAccess then
        minIndexReads shelf n (j + 1) j
      else
        minIndexReads shelf n (j + 1) minIndex)

/-- Subscripts read by the compaction loop of lines 50-52 (`shelf[j + 1]`), with
`n` iterations left at loop index `j`. -/
def shiftReads : Nat → Nat → List Int
  | 0, _ => []
  | n + 1, j => ((j : Int) + 1) :: shiftReads n (j + 1)

/-- Subscripts written by the compaction loop of lines 50-52 (`shelf[j]`). -/
def shiftWrites : Nat → Nat → List Int
  | 0, _ => []
  | n + 1, j => (j : Int) :: shiftWrites n (j + 1)

/-- The value of `count` at lines 57-59, where the new cell is written, on the
path with `found == -1`: `count - 1` after an eviction, `count` otherwise. -/
def insertIndex (s : Cache) : Int :=
  if (s.shelf.length : Int) = s.capacity then (s.shelf.length : Int) - 1
  else (s.shelf.length : Int)

/-- All subscripts at which `ADD x y` reads or writes `shelf` in state `s`. -/
def addIndices (s : Cache) (x : Int) : List Int :=
  foundReads x s.shelf 0 ++
    match found s.shelf x with
    | some j => [(j : Int)]
    | none =>
      (if (s.shelf.length : Int) = s.capacity then
        minIndexReads s.shelf (s.shelf.length - 1) 1 0 ++
          shiftReads (s.shelf.length - 1 - minIndex s.shelf) (minIndex s.shelf) ++
          shiftWrites (s.shelf.length - 1 - minIndex s.shelf) (minIndex s.shelf)
      else []) ++ [insertIndex s]

/-- All subscripts at which `ACCESS x` reads or writes `shelf` in state `s`. -/
def accessIndices (s : Cache) (x : Int) : List Int :=
  foundReads x s.shelf 0 ++
    match found s.shelf x with
    | some j => [(j : Int)]
    | none => []

/-- All subscripts used by one iteration of the command loop. -/
def stepIndices (s : Cache) : Op → List Int
  | Op.ADD x _ => addIndices s x
  | Op.ACCESS x => accessIndices s x

/-- One iteration of the command loop on the array `struct Book shelf[100]` of
line 14: the state afterwards, or `none` when the command reads or writes a
subscript outside `0 .. 99`, where the behaviour of the program is undefined
(with `capacity > 100` or `capacity < 0` the insert of line 57 at `count = 100`,
with `capacity = 0` the insert at `count = -1`). -/
def stepChecked (s : Cache) (op : Op) : Option Cache :=
  if ∀ i ∈ stepIndices s op, 0 ≤ i ∧ i < 100 then some (step s op) else none

/-- The state after the commands `ops` have been processed in order on the array
of 100 cells, or `none` when one of them leaves the array. -/
def runChecked (s : Cache) : List Op → Option Cache
  | [] => some s
  | op :: ops =>
    match stepChecked s op with
    | none => none
    | some t => runChecked t ops

/-- A state the command loop reaches from the empty shelf (`count = 0`,
`time = 1`) with a capacity of at least one, every command on the way having
stayed inside the array. -/
def Reachable (s : Cache) : Prop :=
  ∃ cap ops, 1 ≤ cap ∧ runChecked (init cap) ops = some s

end Bookshelf

/-!
Values of type `int`.  Where a result of `int` arithmetic can leave the range
`INT_MIN .. INT_MAX` the embedding applies `wrap`, the 32-bit two's-complement
result that the compiled programs produce (the C standard leaves signed
overflow undefined).
-/

namespace MachineInt

/-- Largest value of an `int`. -/
def INT_MAX : Int := 2147483647

/-- Smallest value of an `int`. -/
def INT_MIN : Int := -2147483648

/-- The `int` that results from a computation whose exact value is `x`. -/
def wrap (x : Int) : Int := (x + 2147483648) % 4294967296 - 2147483648

/-- The exact value `x` is the value of an `int`. -/
def fits (x : Int) : Prop := -2147483648 ≤ x ∧ x ≤ 2147483647

end MachineInt

/-!
Line buffer (`Question#5.c`).

The array `char **lines` with the counter `size` is modelled by the list of the
stored lines `lines[0], …, lines[size-1]`; `size` is the length of that list.
A line (a heap-allocated C string) is modelled by a `String`.  `xmalloc` and
`xrealloc` are assumed to succeed (on failure the program exits).  `capacity`
is an `int`: the product `newCap * GROW_FACTOR` and the sum `size + 1` are
wrapped.
-/

namespace Editor

/-- The macro `INITIAL_CAPACITY` (line 21). -/
def INITIAL_CAPACITY : Int := 4

/-- The macro `GROW_FACTOR` (line 22). -/
def GROW_FACTOR : Int := 2

/-- The record `LineBuffer` (lines 44-48): the stored lines `lines[0..size)` and
the allocated `capacity`. -/
structure LineBuffer where
  lines : List String
  capacity : Int
deriving DecidableEq, Repr

/-- The field `size`: the number of stored lines. -/
def LineBuffer.size (b : LineBuffer) : Int := b.lines.length

/-- Function `initBuffer` (lines 51-55). -/
def initBuffer : LineBuffer :=
  { lines := [], capacity := INITIAL_CAPACITY }

/-- The loop `while (newCap < minCapacity) newCap *= GROW_FACTOR;` of line 73 with
`fuel` iterations available; `none` when they do not suffice. -/
def growLoop : Nat → Int → Int → Option Int
  | 0, newCap, minCapacity => if newCap < minCapacity then none else some newCap
  | fuel + 1, newCap, minCapacity =>
    if newCap < minCapacity then
      growLoop fuel (MachineInt.wrap (newCap * GROW_FACTOR)) minCapacity
    else some newCap

/-- Function `ensureCapacity` (lines 70-76). -/
def ensureCapacity (fuel : Nat) (b : LineBuffer) (minCapacity : Int) : Option LineBuffer :=
  if b.capacity ≥ minCapacity then some b
  else
    match growLoop fuel b.capacity minCapacity with
    | none => none
    | some newCap => some { b with capacity := newCap }

/-- Function `shrinkToFit` (lines 79-90). When `size == 0` the array is freed and
a new one of `INITIAL_CAPACITY` cells is allocated; no line is stored in it. -/
def shrinkToFit (b : LineBuffer) : LineBuffer :=
  if b.capacity = b.size then b
  else if b.size = 0 then { b with capacity := INITIAL_CAPACITY }
  else { b with capacity := b.size }

/-- The call `memmove(&lines[index + 1], &lines[index], …)` of line 149 on the
cells `lines[0..size]`: the cells up to `index` keep their content and the cells
`index + 1 .. size` receive the old cells `index .. size - 1`. -/
def memmoveUp (lines : List String) (index : Nat) : List String :=
  lines.take (index + 1) ++ lines.drop index

/-- Function `insertLine` (lines 133-154), with `fuel` iterations available to
the loop of `ensureCapacity`. An index out of range leaves the buffer as it is
(a message goes to `stderr`). -/
def insertLine (fuel : Nat) (b : LineBuffer) (index : Int) (text : String) :
    Option LineBuffer :=
  if index < 0 ∨ index > b.size then some b
  else
    match ensureCapacity fuel b (MachineInt.wrap (b.size + 1)) with
    | none => none
    | some b1 =>
      if index < b1.size then
        some { b1 with lines := (memmoveUp b1.lines index.toNat).set index.toNat text }
      else
        some { b1 with lines := b1.lines ++ [text] }

end Editor

/-!
Fuel simulation (`Question#2.c`).

Every sum and difference of `int` values is wrapped (`MachineInt.wrap`).  The
text printed by `calculateFuel` is left out; the value returned is kept.  The
call stack is not modelled: a bound on the number of nested calls is an
argument of the function.
-/

namespace Mission

/-- Function `calculateFuel` (lines 4-46). The first argument bounds the number
of nested calls that are available, and the result is `none` when they do not
suffice. `Int.tmod` is the remainder of C (truncated division); `fuel -=
consumption`, `fuel += recharge`, `fuel += solarBonus` and `planet + 1` are
wrapped to 32 bits. -/
def calculateFuel : Nat → Int → Int → Int → Int → Int → Int → Option Int
  | 0, _, _, _, _, _, _ => none
  | depth + 1, fuel, consumption, recharge, solarBonus, planet, totalPlanets =>
    if fuel ≤ 0 then some 0
    else if planet > totalPlanets then some 1
    else if MachineInt.wrap (fuel - consumption) ≤ 0 then
      calculateFuel depth 0 consumption recharge solarBonus (MachineInt.wrap (planet + 1))
        totalPlanets
    else if Int.tmod planet 4 = 0 then
      calculateFuel depth
        (MachineInt.wrap
          (MachineInt.wrap (MachineInt.wrap (fuel - consumption) + recharge) + solarBonus))
        consumption recharge solarBonus (MachineInt.wrap (planet + 1)) totalPlanets
    else
      calculateFuel depth (MachineInt.wrap (MachineInt.wrap (fuel - consumption) + recharge))
        consumption recharge solarBonus (MachineInt.wrap (planet + 1)) totalPlanets

end Mission

namespace Bookshelf

/-! ## The search loop -/

theorem foundFrom_eq_none (x : Int) (l : List Book) (j : Nat) :
    foundFrom x l j = none ↔ ∀ b ∈ l, b.id ≠ x := by
  induction l generalizing j with
  | nil => simp [foundFrom]
  | cons b rest ih =>
    by_cases hb : b.id = x
    · simp [foundFrom, hb]
    · simp [foundFrom, hb, ih]

theorem foundFrom_eq_some (x : Int) (l : List Book) (j k : Nat)
    (h : foundFrom x l j = some k) :
    ∃ pre b post, l = pre ++ b :: post ∧ k = j + pre.length ∧ b.id = x ∧
      ∀ c ∈ pre, c.id ≠ x := by
  induction l generalizing j with
  | nil => simp [foundFrom] at h
  | cons b rest ih =>
    by_cases hb : b.id = x
    · simp [foundFrom, hb] at h
      exact ⟨[], b, rest, rfl, by simp [h], hb, by simp⟩
    · simp [foundFrom, hb] at h
      obtain ⟨pre, c, post, hl, hk, hc, hpre⟩ := ih (j + 1) h
      refine ⟨b :: pre, c, post, by simp [hl], by simp [hk]; omega, hc, ?_⟩
      intro d hd
      rcases List.mem_cons.1 hd with rfl | hd
      · exact hb
      · exact hpre d hd

theorem found_eq_none (l : List Book) (x : Int) :
    found l x = none ↔ ∀ b ∈ l, b.id ≠ x :=
  foundFrom_eq_none x l 0

theorem found_eq_some (l : List Book) (x : Int) (k : Nat) (h : found l x = some k) :
    ∃ pre b post, l = pre ++ b :: post ∧ k = pre.length ∧ b.id = x ∧
      ∀ c ∈ pre, c.id ≠ x := by
  obtain ⟨pre, b, post, hl, hk, hb, hpre⟩ := foundFrom_eq_some x l 0 k h
  exact ⟨pre, b, post, hl, by omega, hb, hpre⟩

theorem foundFrom_append (x : Int) (pre : List Book) (b : Book) (post : List Book) (j : Nat)
    (hb : b.id = x) (hpre : ∀ c ∈ pre, c.id ≠ x) :
    foundFrom x (pre ++ b :: post) j = some (j + pre.length) := by
  induction pre generalizing j with
  | nil => simp [foundFrom, hb]
  | cons c rest ih =>
    have hc : c.id ≠ x := hpre c (List.mem_cons_self _ _)
    have := ih (j + 1) (fun d hd => hpre d (List.mem_cons_of_mem _ hd))
    simp [foundFrom, hc, this]
    omega

theorem found_append (x : Int) (pre : List Book) (b : Book) (post : List Book)
    (hb : b.id = x) (hpre : ∀ c ∈ pre, c.id ≠ x) :
    found (pre ++ b :: post) x = some pre.length := by
  have := foundFrom_append x pre b post 0 hb hpre
  simpa [found] using this

/-! ## Cell access in a decomposed shelf -/

theorem getD_mid (pre : List Book) (b : Book) (post : List Book) :
    (pre ++ b :: post).getD pre.length default = b := by
  rw [List.getD_eq_getElem?_getD, List.getElem?_append_right (Nat.le_refl _)]
  simp

theorem set_mid (pre : List Book) (b c : Book) (post : List Book) :
    (pre ++ b :: post).set pre.length c = pre ++ c :: post := by
  simp

theorem getD_mid_succ (pre : List Book) (a b : Book) (post : List Book) :
    (pre ++ a :: b :: post).getD (pre.length + 1) default = b := by
  have h := getD_mid (pre ++ [a]) b post
  simpa using h

/-! ## The eviction scan -/

theorem minIndexLoop_spec (l : List Book) (n j m : Nat)
    (hm : m < j) (hn : j + n = l.length)
    (hle : ∀ i, i < j → (l.getD m default).lastAccess ≤ (l.getD i default).lastAccess)
    (hlt : ∀ i, i < m → (l.getD m default).lastAccess < (l.getD i default).lastAccess) :
    minIndexLoop l n j m < l.length ∧
    (∀ i, i < l.length →
      (l.getD (minIndexLoop l n j m) default).lastAccess ≤ (l.getD i default).lastAccess) ∧
    (∀ i, i < minIndexLoop l n j m →
      (l.getD (minIndexLoop l n j m) default).lastAccess < (l.getD i default).lastAccess) := by
  induction n generalizing j m with
  | zero =>
    simp only [minIndexLoop]
    exact ⟨by omega, fun i hi => hle i (by omega), hlt⟩
  | succ n ih =>
    simp only [minIndexLoop]
    split
    · rename_i hjm
      apply ih (j + 1) j (by omega) (by omega)
      · intro i hi
        rcases Nat.lt_succ_iff_lt_or_eq.1 hi with h | h
        · exact le_of_lt (lt_of_lt_of_le hjm (hle i h))
        · subst h; exact le_rfl
      · intro i hi
        exact lt_of_lt_of_le hjm (hle i hi)
    · rename_i hjm
      apply ih (j + 1) m (by omega) (by omega)
      · intro i hi
        rcases Nat.lt_succ_iff_lt_or_eq.1 hi with h | h
        · exact hle i h
        · subst h; exact not_lt.1 hjm
      · exact hlt

theorem minIndex_index_spec (l : List Book) (hl : l ≠ []) :
    minIndex l < l.length ∧
    (∀ i, i < l.length →
      (l.getD (minIndex l) default).lastAccess ≤ (l.getD i default).lastAccess) ∧
    (∀ i, i < minIndex l →
      (l.getD (minIndex l) default).lastAccess < (l.getD i default).lastAccess) := by
  have hpos : 0 < l.length := List.length_pos.2 hl
  apply minIndexLoop_spec l (l.length - 1) 1 0 (by omega) (by omega)
  · intro i hi
    have : i = 0 := by omega
    subst this; exact le_rfl
  · intro i hi; omega

/-- The scan picks the first cell that attains the minimum `lastAccess`. -/
theorem minIndex_spec (l : List Book) (hl : l ≠ []) :
    ∃ pre b post, l = pre ++ b :: post ∧ minIndex l = pre.length ∧
      (∀ c ∈ pre, b.lastAccess < c.lastAccess) ∧
      (∀ c ∈ post, b.lastAccess ≤ c.lastAccess) := by
  obtain ⟨hr, hle, hlt⟩ := minIndex_index_spec l hl
  have hdec : l = l.take (minIndex l) ++ l[minIndex l] :: l.drop (minIndex l + 1) := by
    rw [← List.drop_eq_getElem_cons hr, List.take_append_drop]
  have hget : l.getD (minIndex l) default = l[minIndex l] := List.getD_eq_getElem l default hr
  refine ⟨l.take (minIndex l), l[minIndex l], l.drop (minIndex l + 1), hdec, ?_, ?_, ?_⟩
  · rw [List.length_take]; omega
  · intro c hc
    obtain ⟨i, hi, rfl⟩ := List.getElem_of_mem hc
    rw [List.length_take] at hi
    have hi1 : i < minIndex l := by omega
    have hi2 : i < l.length := by omega
    have := hlt i hi1
    rw [hget, List.getD_eq_getElem l default hi2] at this
    rw [List.getElem_take]
    exact this
  · intro c hc
    obtain ⟨i, hi, rfl⟩ := List.getElem_of_mem (List.mem_of_mem_drop hc)
    have := hle i hi
    rw [hget, List.getD_eq_getElem l default hi] at this
    exact this

/-! ## The compaction loop -/

theorem shiftLoop_dropLast (pre : List Book) (a : Book) (rest : List Book) :
    (shiftLoop rest.length pre.length (pre ++ a :: rest)).dropLast = pre ++ rest := by
  induction rest generalizing pre a with
  | nil => simp [shiftLoop]
  | cons b rest ih =>
    simp only [List.length_cons, shiftLoop]
    rw [getD_mid_succ, set_mid]
    have h := ih (pre ++ [b]) b
    simpa using h

/-- Lines 50-53 delete the cell at `minIndex` and keep the others in order. -/
theorem removeAt_mid (pre : List Book) (b : Book) (post : List Book) :
    removeAt (pre ++ b :: post) pre.length = pre ++ post := by
  unfold removeAt
  have h : (pre ++ b :: post).length - 1 - pre.length = post.length := by
    simp
  rw [h]
  exact shiftLoop_dropLast pre b post

/-! ## The two branches on a decomposed shelf -/

theorem add_hit (s : Cache) (x y : Int) (pre : List Book) (b : Book) (post : List Book)
    (hs : s.shelf = pre ++ b :: post) (hb : b.id = x) (hpre : ∀ c ∈ pre, c.id ≠ x) :
    add s x y =
      { capacity := s.capacity
        shelf := pre ++ { id := b.id, popularity := y, lastAccess := s.time } :: post
        time := s.time + 1 } := by
  unfold add
  rw [hs, found_append x pre b post hb hpre]
  simp only [getD_mid, set_mid]

theorem add_room (s : Cache) (x y : Int) (habs : ∀ b ∈ s.shelf, b.id ≠ x)
    (hroom : (s.shelf.length : Int) ≠ s.capacity) :
    add s x y =
      { capacity := s.capacity
        shelf := s.shelf ++ [{ id := x, popularity := y, lastAccess := s.time }]
        time := s.time + 1 } := by
  unfold add
  rw [(found_eq_none s.shelf x).2 habs]
  simp [hroom]

theorem add_full (s : Cache) (x y : Int) (pre : List Book) (v : Book) (post : List Book)
    (habs : ∀ b ∈ s.shelf, b.id ≠ x) (hfull : (s.shelf.length : Int) = s.capacity)
    (hs : s.shelf = pre ++ v :: post) (hmin : minIndex s.shelf = pre.length) :
    add s x y =
      { capacity := s.capacity
        shelf := pre ++ post ++ [{ id := x, popularity := y, lastAccess := s.time }]
        time := s.time + 1 } := by
  unfold add
  rw [(found_eq_none s.shelf x).2 habs]
  simp only [hfull, if_true, hmin]
  rw [hs, removeAt_mid]

theorem access_hit (s : Cache) (x : Int) (pre : List Book) (b : Book) (post : List Book)
    (hs : s.shelf = pre ++ b :: post) (hb : b.id = x) (hpre : ∀ c ∈ pre, c.id ≠ x) :
    access s x =
      ({ capacity := s.capacity
         shelf := pre ++ { id := b.id, popularity := b.popularity, lastAccess := s.time } :: post
         time := s.time + 1 }, b.popularity) := by
  unfold access
  rw [hs, found_append x pre b post hb hpre]
  simp only [getD_mid, set_mid]

theorem access_miss (s : Cache) (x : Int) (habs : ∀ b ∈ s.shelf, b.id ≠ x) :
    access s x = (s, -1) := by
  unfold access
  rw [(found_eq_none s.shelf x).2 habs]

/-- A shelf either has no cell with id `x` or splits at the first such cell. -/
theorem shelf_cases (l : List Book) (x : Int) :
    (∀ b ∈ l, b.id ≠ x) ∨
    ∃ pre b post, l = pre ++ b :: post ∧ b.id = x ∧ ∀ c ∈ pre, c.id ≠ x := by
  cases h : found l x with
  | none => exact Or.inl ((found_eq_none l x).1 h)
  | some k =>
    obtain ⟨pre, b, post, hl, _, hb, hpre⟩ := found_eq_some l x k h
    exact Or.inr ⟨pre, b, post, hl, hb, hpre⟩

/-! ## Lists without repeated keys -/

theorem nodup_map_replace (f : Book → Int) (pre post : List Book) (b c : Book)
    (h : ((pre ++ b :: post).map f).Nodup) (hnew : f c ∉ (pre ++ b :: post).map f) :
    ((pre ++ c :: post).map f).Nodup := by
  simp only [List.map_append, List.map_cons, List.nodup_middle, List.nodup_cons,
    List.mem_append, List.mem_cons, not_or] at h hnew ⊢
  exact ⟨⟨hnew.1, hnew.2.2⟩, h.2⟩

theorem nodup_map_remove (f : Book → Int) (pre post : List Book) (b : Book)
    (h : ((pre ++ b :: post).map f).Nodup) :
    ((pre ++ post).map f).Nodup ∧ f b ∉ (pre ++ post).map f := by
  simp only [List.map_append, List.map_cons, List.nodup_middle, List.nodup_cons,
    List.mem_append, not_or] at h ⊢
  exact ⟨h.2, h.1⟩

theorem nodup_map_snoc (f : Book → Int) (l : List Book) (b : Book)
    (h : (l.map f).Nodup) (hnew : f b ∉ l.map f) :
    ((l ++ [b]).map f).Nodup := by
  have := nodup_map_replace f l [] b b
  simp only [List.map_append, List.map_cons, List.map_nil] at this ⊢
  rw [List.nodup_append]
  refine ⟨h, List.nodup_singleton _, ?_⟩
  intro a ha hb
  rw [List.mem_singleton] at hb
  subst hb
  exact hnew ha

/-! ## The invariant -/

theorem inv_init (cap : Int) (hcap : 1 ≤ cap) : Inv (init cap) := by
  refine ⟨hcap, ?_, ?_, ?_, ?_⟩ <;> simp [init]
  omega

theorem stamp_not_mem (l : List Book) (t : Int) (h : ∀ b ∈ l, b.lastAccess < t) :
    t ∉ l.map Book.lastAccess := by
  intro ht
  obtain ⟨b, hb, hbt⟩ := List.mem_map.1 ht
  have := h b hb
  omega

theorem id_not_mem (l : List Book) (x : Int) (h : ∀ b ∈ l, b.id ≠ x) :
    x ∉ l.map Book.id := by
  intro hx
  obtain ⟨b, hb, hbx⟩ := List.mem_map.1 hx
  exact h b hb hbx

/-- Replacing the cell at the split point by one with the same id and the
current clock value keeps the invariant. -/
theorem inv_touch (s : Cache) (pre : List Book) (b : Book) (post : List Book) (y : Int)
    (h : Inv s) (hs : s.shelf = pre ++ b :: post) :
    Inv { capacity := s.capacity
          shelf := pre ++ { id := b.id, popularity := y, lastAccess := s.time } :: post
          time := s.time + 1 } := by
  obtain ⟨hcap, hsize, hids, hstamps, hfresh⟩ := h
  rw [hs] at hsize hids hstamps hfresh
  refine ⟨hcap, ?_, ?_, ?_, ?_⟩
  · simpa using hsize
  · simpa using hids
  · exact nodup_map_replace Book.lastAccess pre post b _ hstamps
      (stamp_not_mem _ _ hfresh)
  · intro c hc
    simp only [List.mem_append, List.mem_cons] at hc hfresh
    show c.lastAccess < s.time + 1
    rcases hc with hc | hc | hc
    · have := hfresh c (Or.inl hc); omega
    · subst hc; simp
    · have := hfresh c (Or.inr (Or.inr hc)); omega

theorem inv_add (s : Cache) (x y : Int) (h : Inv s) : Inv (add s x y) := by
  rcases shelf_cases s.shelf x with habs | ⟨pre, b, post, hs, hb, hpre⟩
  · obtain ⟨hcap, hsize, hids, hstamps, hfresh⟩ := h
    by_cases hfull : (s.shelf.length : Int) = s.capacity
    · have hne : s.shelf ≠ [] := by
        intro h0
        rw [h0] at hfull
        simp at hfull
        omega
      obtain ⟨pre, v, post, hs, hmin, _, _⟩ := minIndex_spec s.shelf hne
      rw [add_full s x y pre v post habs hfull hs hmin]
      rw [hs] at hsize hids hstamps hfresh habs hfull
      have hsub : ∀ c ∈ pre ++ post, c ∈ pre ++ v :: post := by
        intro c hc
        simp only [List.mem_append, List.mem_cons] at hc ⊢
        tauto
      refine ⟨hcap, ?_, ?_, ?_, ?_⟩
      · simp only [List.length_append, List.length_cons, List.length_nil] at hfull ⊢
        push_cast at hfull ⊢
        omega
      · exact nodup_map_snoc Book.id _ _ (nodup_map_remove Book.id pre post v hids).1
          (id_not_mem _ _ (fun c hc => habs c (hsub c hc)))
      · exact nodup_map_snoc Book.lastAccess _ _
          (nodup_map_remove Book.lastAccess pre post v hstamps).1
          (stamp_not_mem _ _ (fun c hc => hfresh c (hsub c hc)))
      · intro c hc
        show c.lastAccess < s.time + 1
        rcases List.mem_append.1 hc with hc | hc
        · have := hfresh c (hsub c hc); omega
        · rw [List.mem_singleton] at hc; subst hc; simp
    · rw [add_room s x y habs hfull]
      refine ⟨hcap, ?_, ?_, ?_, ?_⟩
      · simp only [List.length_append, List.length_cons, List.length_nil]
        push_cast
        omega
      · exact nodup_map_snoc Book.id _ _ hids (id_not_mem _ _ habs)
      · exact nodup_map_snoc Book.lastAccess _ _ hstamps (stamp_not_mem _ _ hfresh)
      · intro c hc
        show c.lastAccess < s.time + 1
        rcases List.mem_append.1 hc with hc | hc
        · have := hfresh c hc; omega
        · rw [List.mem_singleton] at hc; subst hc; simp
  · rw [add_hit s x y pre b post hs hb hpre]
    exact inv_touch s pre b post y h hs

theorem inv_access (s : Cache) (x : Int) (h : Inv s) : Inv (access s x).1 := by
  rcases shelf_cases s.shelf x with habs | ⟨pre, b, post, hs, hb, hpre⟩
  · rw [access_miss s x habs]; exact h
  · rw [access_hit s x pre b post hs hb hpre]
    exact inv_touch s pre b post b.popularity h hs

theorem inv_step (s : Cache) (op : Op) (h : Inv s) : Inv (step s op) := by
  cases op with
  | ADD x y => exact inv_add s x y h
  | ACCESS x => exact inv_access s x h

theorem inv_run (s : Cache) (ops : List Op) (h : Inv s) : Inv (run s ops) := by
  induction ops generalizing s with
  | nil => exact h
  | cons op ops ih => exact ih (step s op) (inv_step s op h)

/-- Every state reached from the empty shelf with a positive capacity satisfies
the invariant. -/
theorem inv_reach (cap : Int) (hcap : 1 ≤ cap) (ops : List Op) :
    Inv (run (init cap) ops) :=
  inv_run _ ops (inv_init cap hcap)

theorem stepChecked_some (s t : Cache) (op : Op) (h : stepChecked s op = some t) :
    step s op = t ∧ ∀ i ∈ stepIndices s op, 0 ≤ i ∧ i < 100 := by
  unfold stepChecked at h
  split at h
  · rename_i hb
    exact ⟨Option.some.inj h, hb⟩
  · cases h

theorem stepChecked_of_bound (s : Cache) (op : Op)
    (h : ∀ i ∈ stepIndices s op, 0 ≤ i ∧ i < 100) : stepChecked s op = some (step s op) := by
  unfold stepChecked
  rw [if_pos h]

/-- A run that stays inside the array ends in the state that `run` computes. -/
theorem runChecked_eq_run (s t : Cache) (ops : List Op) (h : runChecked s ops = some t) :
    run s ops = t := by
  induction ops generalizing s with
  | nil =>
    simp only [runChecked] at h
    exact Option.some.inj h
  | cons op ops ih =>
    simp only [runChecked] at h
    cases hstep : stepChecked s op with
    | none => rw [hstep] at h; cases h
    | some u =>
      rw [hstep] at h
      rw [run, (stepChecked_some s u op hstep).1]
      exact ih u h

theorem inv_of_reachable (s : Cache) (h : Reachable s) : Inv s := by
  obtain ⟨cap, ops, hcap, hrun⟩ := h
  rw [← runChecked_eq_run _ _ ops hrun]
  exact inv_reach cap hcap ops

theorem add_capacity (s : Cache) (x y : Int) : (add s x y).capacity = s.capacity := by
  unfold add
  split <;> rfl

theorem access_capacity (s : Cache) (x : Int) : (access s x).1.capacity = s.capacity := by
  unfold access
  split <;> rfl

theorem run_capacity (s : Cache) (ops : List Op) : (run s ops).capacity = s.capacity := by
  induction ops generalizing s with
  | nil => rfl
  | cons op ops ih =>
    rw [run, ih]
    cases op with
    | ADD x y => exact add_capacity s x y
    | ACCESS x => exact access_capacity s x

theorem key_index_unique (f : Book → Int) (l : List Book) (h : (l.map f).Nodup)
    (i j : Nat) (b c : Book) (hi : l[i]? = some b) (hj : l[j]? = some c)
    (hf : f b = f c) : i = j := by
  have hbc : b = c :=
    List.inj_on_of_nodup_map h (List.getElem?_mem hi) (List.getElem?_mem hj) hf
  subst hbc
  obtain ⟨hlen, _⟩ := List.getElem?_eq_some.1 hi
  exact List.getElem?_inj hlen (List.Nodup.of_map f h) (hi.trans hj.symm)

theorem getElem?_mid (pre : List Book) (b : Book) (post : List Book) :
    (pre ++ b :: post)[pre.length]? = some b := by
  rw [List.getElem?_append_right (Nat.le_refl _)]
  simp

theorem getElem?_mid_ne (pre : List Book) (b c : Book) (post : List Book) (i : Nat)
    (hi : i ≠ pre.length) :
    (pre ++ c :: post)[i]? = (pre ++ b :: post)[i]? := by
  rw [← set_mid pre b c post]
  exact List.getElem?_set_ne (Ne.symm hi)

theorem nonempty_of_full (s : Cache) (hcap : 1 ≤ s.capacity)
    (hfull : (s.shelf.length : Int) = s.capacity) : s.shelf ≠ [] := by
  intro h0
  rw [h0] at hfull
  simp at hfull
  omega

/-- In a shelf with pairwise distinct timestamps the cell found by the scan is
strictly older than every other cell. -/
theorem minIndex_strict (l : List Book) (hl : l ≠ []) (hstamps : (l.map Book.lastAccess).Nodup) :
    ∃ pre v post, l = pre ++ v :: post ∧ minIndex l = pre.length ∧
      v ∉ pre ∧ v ∉ post ∧ ∀ c ∈ pre ++ post, v.lastAccess < c.lastAccess := by
  obtain ⟨pre, v, post, hs, hmin, hlt, hle⟩ := minIndex_spec l hl
  rw [hs] at hstamps
  have hnd : (pre ++ v :: post).Nodup := List.Nodup.of_map _ hstamps
  have hv := (List.nodup_cons.1 (List.nodup_middle.1 hnd)).1
  have hvs := (nodup_map_remove Book.lastAccess pre post v hstamps).2
  refine ⟨pre, v, post, hs, hmin, fun h => hv (List.mem_append_left _ h),
    fun h => hv (List.mem_append_right _ h), ?_⟩
  intro c hc
  have hne : v.lastAccess ≠ c.lastAccess := by
    intro heq
    exact hvs (heq ▸ List.mem_map_of_mem Book.lastAccess hc)
  rcases List.mem_append.1 hc with hc | hc
  · exact hlt c hc
  · exact lt_of_le_of_ne (hle c hc) hne

end Bookshelf

namespace Bookshelf

/-! ## Array subscripts -/

theorem foundReads_bound (x : Int) (l : List Book) (j : Nat) :
    ∀ i ∈ foundReads x l j, (j : Int) ≤ i ∧ i < (j : Int) + l.length := by
  induction l generalizing j with
  | nil => simp [foundReads]
  | cons b rest ih =>
    intro i hi
    simp only [foundReads, List.mem_cons] at hi
    simp only [List.length_cons]
    push_cast
    rcases hi with hi | hi
    · subst hi; omega
    · split at hi
      · simp at hi
      · have := ih (j + 1) i hi
        push_cast at this
        omega

theorem minIndexReads_bound (l : List Book) (n j m : Nat) (hm : m < j) :
    ∀ i ∈ minIndexReads l n j m, 0 ≤ i ∧ i < (j : Int) + n := by
  induction n generalizing j m with
  | zero => simp [minIndexReads]
  | succ n ih =>
    intro i hi
    simp only [minIndexReads, List.mem_cons] at hi
    push_cast
    rcases hi with hi | hi | hi
    · subst hi; omega
    · subst hi; omega
    · split at hi
      · have := ih (j + 1) j (by omega) i hi
        push_cast at this
        omega
      · have := ih (j + 1) m (by omega) i hi
        push_cast at this
        omega

theorem shiftReads_bound (n j : Nat) :
    ∀ i ∈ shiftReads n j, (j : Int) + 1 ≤ i ∧ i < (j : Int) + 1 + n := by
  induction n generalizing j with
  | zero => simp [shiftReads]
  | succ n ih =>
    intro i hi
    simp only [shiftReads, List.mem_cons] at hi
    push_cast
    rcases hi with hi | hi
    · subst hi; omega
    · have := ih (j + 1) i hi
      push_cast at this
      omega

theorem shiftWrites_bound (n j : Nat) :
    ∀ i ∈ shiftWrites n j, (j : Int) ≤ i ∧ i < (j : Int) + n := by
  induction n generalizing j with
  | zero => simp [shiftWrites]
  | succ n ih =>
    intro i hi
    simp only [shiftWrites, List.mem_cons] at hi
    push_cast
    rcases hi with hi | hi
    · subst hi; omega
    · have := ih (j + 1) i hi
      push_cast at this
      omega

theorem found_lt_length (l : List Book) (x : Int) (j : Nat) (h : found l x = some j) :
    j < l.length := by
  obtain ⟨pre, b, post, hl, hk, _, _⟩ := found_eq_some l x j h
  rw [hl, hk]
  simp

/-- In a state that satisfies the invariant every subscript used by a command
lies in `0 .. capacity - 1`. -/
theorem stepIndices_bound (s : Cache) (op : Op) (h : Inv s) :
    ∀ i ∈ stepIndices s op, 0 ≤ i ∧ i < s.capacity := by
  obtain ⟨hcap, hsize, _, _, _⟩ := h
  have hsearch : ∀ x : Int, ∀ i ∈ foundReads x s.shelf 0, 0 ≤ i ∧ i < s.capacity := by
    intro x i hi
    have := foundReads_bound x s.shelf 0 i hi
    push_cast at this
    omega
  have hfound : ∀ (x : Int) (j : Nat), found s.shelf x = some j →
      0 ≤ (j : Int) ∧ (j : Int) < s.capacity := by
    intro x j hj
    have := found_lt_length s.shelf x j hj
    omega
  intro i hi
  cases op with
  | ADD x y =>
    simp only [stepIndices, addIndices, List.mem_append] at hi
    rcases hi with hi | hi
    · exact hsearch x i hi
    · cases hf : found s.shelf x with
      | some j =>
        rw [hf] at hi
        simp only [List.mem_singleton] at hi
        subst hi
        exact hfound x j hf
      | none =>
        rw [hf] at hi
        simp only [List.mem_append, List.mem_singleton] at hi
        by_cases hfull : (s.shelf.length : Int) = s.capacity
        · have hne := nonempty_of_full s hcap hfull
          have hk := (minIndex_index_spec s.shelf hne).1
          simp only [hfull, if_true, insertIndex, List.mem_append] at hi
          rcases hi with (((hi | hi) | hi) | hi)
          · have := minIndexReads_bound s.shelf (s.shelf.length - 1) 1 0 (by omega) i hi
            omega
          · have := shiftReads_bound _ _ i hi
            omega
          · have := shiftWrites_bound _ _ i hi
            omega
          · subst hi; omega
        · simp only [hfull, if_false, insertIndex, List.not_mem_nil, false_or] at hi
          subst hi; omega
  | ACCESS x =>
    simp only [stepIndices, accessIndices, List.mem_append] at hi
    rcases hi with hi | hi
    · exact hsearch x i hi
    · cases hf : found s.shelf x with
      | some j =>
        rw [hf] at hi
        simp only [List.mem_singleton] at hi
        subst hi
        exact hfound x j hf
      | none =>
        rw [hf] at hi
        simp at hi

end Bookshelf

namespace Bookshelf

/-! ## Runs inside the array -/

theorem access_length (s : Cache) (x : Int) :
    (access s x).1.shelf.length = s.shelf.length := by
  rcases shelf_cases s.shelf x with habs | ⟨pre, b, post, hs, hb, hpre⟩
  · rw [access_miss s x habs]
  · rw [access_hit s x pre b post hs hb hpre, hs]
    simp

theorem search_lt_length (s : Cache) (x : Int) :
    ∀ i ∈ foundReads x s.shelf 0, 0 ≤ i ∧ i < (s.shelf.length : Int) := by
  intro i hi
  have := foundReads_bound x s.shelf 0 i hi
  push_cast at this
  omega

theorem accessIndices_lt (s : Cache) (x : Int) :
    ∀ i ∈ accessIndices s x, 0 ≤ i ∧ i < (s.shelf.length : Int) := by
  intro i hi
  simp only [accessIndices, List.mem_append] at hi
  rcases hi with hi | hi
  · exact search_lt_length s x i hi
  · cases hf : found s.shelf x with
    | some j =>
      rw [hf] at hi
      simp only [List.mem_singleton] at hi
      subst hi
      have := found_lt_length s.shelf x j hf
      omega
    | none =>
      rw [hf] at hi
      simp at hi

theorem addIndices_hit (s : Cache) (x : Int) (hf : found s.shelf x ≠ none) :
    ∀ i ∈ addIndices s x, 0 ≤ i ∧ i < (s.shelf.length : Int) := by
  intro i hi
  simp only [addIndices, List.mem_append] at hi
  rcases hi with hi | hi
  · exact search_lt_length s x i hi
  · cases hj : found s.shelf x with
    | some j =>
      rw [hj] at hi
      simp only [List.mem_singleton] at hi
      subst hi
      have := found_lt_length s.shelf x j hj
      omega
    | none => exact absurd hj hf

theorem addIndices_room (s : Cache) (x : Int) (hf : found s.shelf x = none)
    (hroom : (s.shelf.length : Int) ≠ s.capacity) :
    (s.shelf.length : Int) ∈ addIndices s x ∧
    ∀ i ∈ addIndices s x, 0 ≤ i ∧ i ≤ (s.shelf.length : Int) := by
  constructor
  · simp [addIndices, hf, hroom, insertIndex]
  · intro i hi
    simp only [addIndices, hf, hroom, if_false, insertIndex, List.mem_append,
      List.not_mem_nil, false_or, List.mem_singleton] at hi
    rcases hi with hi | hi
    · have := search_lt_length s x i hi
      omega
    · subst hi; omega

theorem stepChecked_access (s : Cache) (x : Int) (hl : s.shelf.length ≤ 100) :
    stepChecked s (Op.ACCESS x) = some (access s x).1 := by
  apply stepChecked_of_bound
  intro i hi
  have := accessIndices_lt s x i hi
  omega

theorem stepChecked_add_hit (s : Cache) (x y : Int) (hl : s.shelf.length ≤ 100)
    (hf : found s.shelf x ≠ none) :
    stepChecked s (Op.ADD x y) = some (add s x y) := by
  apply stepChecked_of_bound
  intro i hi
  have := addIndices_hit s x hf i hi
  omega

theorem stepChecked_add_room (s : Cache) (x y : Int) (hl : s.shelf.length < 100)
    (hf : found s.shelf x = none) (hroom : (s.shelf.length : Int) ≠ s.capacity) :
    stepChecked s (Op.ADD x y) = some (add s x y) := by
  apply stepChecked_of_bound
  intro i hi
  have := (addIndices_room s x hf hroom).2 i hi
  omega

/-- With a capacity of at most 100 every command stays inside the array. -/
theorem stepChecked_of_cap (s : Cache) (op : Op) (h : Inv s) (hc : s.capacity ≤ 100) :
    stepChecked s op = some (step s op) := by
  apply stepChecked_of_bound
  intro i hi
  have := stepIndices_bound s op h i hi
  omega

theorem stepChecked_add_full (s : Cache) (x y : Int) (h : Inv s) (hl : s.shelf.length ≤ 100)
    (hfull : (s.shelf.length : Int) = s.capacity) :
    stepChecked s (Op.ADD x y) = some (add s x y) :=
  stepChecked_of_cap s (Op.ADD x y) h (by omega)

theorem step_capacity (s : Cache) (op : Op) : (step s op).capacity = s.capacity := by
  cases op with
  | ADD x y => exact add_capacity s x y
  | ACCESS x => exact access_capacity s x

theorem runChecked_of_cap (s : Cache) (ops : List Op) (h : Inv s) (hc : s.capacity ≤ 100) :
    runChecked s ops = some (run s ops) := by
  induction ops generalizing s with
  | nil => rfl
  | cons op ops ih =>
    simp only [runChecked, run, stepChecked_of_cap s op h hc]
    exact ih (step s op) (inv_step s op h) (by rw [step_capacity]; exact hc)

/-- A command that stays inside the array leaves at most 100 live cells. -/
theorem stepChecked_length (s t : Cache) (op : Op) (h : Inv s) (hl : s.shelf.length ≤ 100)
    (ht : stepChecked s op = some t) : t.shelf.length ≤ 100 := by
  obtain ⟨hstep, hb⟩ := stepChecked_some s t op ht
  subst hstep
  cases op with
  | ACCESS x =>
    show (access s x).1.shelf.length ≤ 100
    rw [access_length]; exact hl
  | ADD x y =>
    show (add s x y).shelf.length ≤ 100
    rcases shelf_cases s.shelf x with habs | ⟨pre, b, post, hs, hb1, hpre⟩
    · by_cases hfull : (s.shelf.length : Int) = s.capacity
      · obtain ⟨pre, v, post, hs, hmin, _, _⟩ :=
          minIndex_spec s.shelf (nonempty_of_full s h.1 hfull)
        rw [add_full s x y pre v post habs hfull hs hmin]
        rw [hs] at hl
        simp only [List.length_append, List.length_cons, List.length_nil] at hl ⊢
        omega
      · have hin := (addIndices_room s x ((found_eq_none s.shelf x).2 habs) hfull).1
        have := hb (s.shelf.length : Int) hin
        rw [add_room s x y habs hfull]
        simp only [List.length_append, List.length_cons, List.length_nil]
        omega
    · rw [add_hit s x y pre b post hs hb1 hpre]
      rw [hs] at hl
      simp only [List.length_append, List.length_cons] at hl ⊢
      exact hl

theorem runChecked_length (s t : Cache) (ops : List Op) (h : Inv s)
    (hl : s.shelf.length ≤ 100) (ht : runChecked s ops = some t) : t.shelf.length ≤ 100 := by
  induction ops generalizing s with
  | nil =>
    simp only [runChecked] at ht
    rw [← Option.some.inj ht]; exact hl
  | cons op ops ih =>
    simp only [runChecked] at ht
    cases hstep : stepChecked s op with
    | none => rw [hstep] at ht; cases ht
    | some u =>
      rw [hstep] at ht
      have hu : step s op = u := (stepChecked_some s u op hstep).1
      exact ih u (hu ▸ inv_step s op h) (stepChecked_length s u op h hl hstep) ht

/-- A reachable state has at most 100 live cells. -/
theorem reachable_length (s : Cache) (h : Reachable s) : s.shelf.length ≤ 100 := by
  obtain ⟨cap, ops, hcap, hrun⟩ := h
  exact runChecked_length (init cap) s ops (inv_init cap hcap) (by simp [init]) hrun

/-- Every state that `run` reaches with a capacity between 1 and 100 is
reachable inside the array. -/
theorem reachable_of_cap (cap : Int) (ops : List Op) (h1 : 1 ≤ cap) (h100 : cap ≤ 100) :
    Reachable (run (init cap) ops) :=
  ⟨cap, ops, h1, runChecked_of_cap (init cap) ops (inv_init cap h1) h100⟩

theorem reachable_capacity (s : Cache) (h : Reachable s) : 1 ≤ s.capacity :=
  (inv_of_reachable s h).1

/-! ## Properties of the specification -/

/-- C1 (true-LRU eviction). In a reachable state (capacity at least one, every
command so far inside the array of 100 cells) whose shelf is full, `ADD x p`
with an id `x` that no cell has stays inside the array and removes exactly one
cell `v`, the one whose `lastAccess` is strictly smaller than that of every
other cell; the other cells are all still present, unchanged and in their order,
and the new cell `{x, p, time}` is present. -/
theorem true_lru_eviction (s : Cache) (x p : Int) (hreach : Reachable s)
    (hfull : (s.shelf.length : Int) = s.capacity) (habs : ∀ b ∈ s.shelf, b.id ≠ x) :
    stepChecked s (Op.ADD x p) = some (add s x p) ∧
    ∃ v, v ∈ s.shelf ∧
      (∀ b ∈ s.shelf, b ≠ v → v.lastAccess < b.lastAccess) ∧
      (add s x p).shelf = s.shelf.erase v ++ [{ id := x, popularity := p, lastAccess := s.time }] ∧
      v ∉ (add s x p).shelf ∧
      (∀ b ∈ s.shelf, b ≠ v → b ∈ (add s x p).shelf) ∧
      ({ id := x, popularity := p, lastAccess := s.time } : Book) ∈ (add s x p).shelf ∧
      (add s x p).shelf.length = s.shelf.length := by
  have hinv := inv_of_reachable s hreach
  refine ⟨stepChecked_add_full s x p hinv (reachable_length s hreach) hfull, ?_⟩
  obtain ⟨hcap, _, _, hstamps, _⟩ := hinv
  have hne := nonempty_of_full s hcap hfull
  obtain ⟨pre, v, post, hs, hmin, hvpre, hvpost, hlt⟩ := minIndex_strict s.shelf hne hstamps
  have herase : s.shelf.erase v = pre ++ post := by
    rw [hs, List.erase_append_right _ hvpre, List.erase_cons_head]
  have hvx : v.id ≠ x := habs v (by rw [hs]; simp)
  rw [add_full s x p pre v post habs hfull hs hmin]
  refine ⟨v, by rw [hs]; simp, ?_, ?_, ?_, ?_, ?_, ?_⟩
  · intro b hb hbv
    rw [hs] at hb
    apply hlt
    simp only [List.mem_append, List.mem_cons] at hb ⊢
    tauto
  · simp only [herase]
  · simp only [List.mem_append, List.mem_singleton, not_or]
    refine ⟨⟨hvpre, hvpost⟩, ?_⟩
    intro hv
    apply hvx
    rw [hv]
  · intro b hb hbv
    rw [hs] at hb
    simp only [List.mem_append, List.mem_cons, List.mem_singleton] at hb ⊢
    tauto
  · simp
  · rw [hs]
    simp only [List.length_append, List.length_cons, List.length_nil]
    omega

theorem true_lru_eviction_witness :
    stepChecked (run (init 2) [Op.ADD 1 10, Op.ADD 2 20, Op.ACCESS 1]) (Op.ADD 3 30) =
      some (add (run (init 2) [Op.ADD 1 10, Op.ADD 2 20, Op.ACCESS 1]) 3 30) ∧
    ∃ v, v ∈ (run (init 2) [Op.ADD 1 10, Op.ADD 2 20, Op.ACCESS 1]).shelf ∧
      (∀ b ∈ (run (init 2) [Op.ADD 1 10, Op.ADD 2 20, Op.ACCESS 1]).shelf,
        b ≠ v → v.lastAccess < b.lastAccess) ∧
      (add (run (init 2) [Op.ADD 1 10, Op.ADD 2 20, Op.ACCESS 1]) 3 30).shelf =
        (run (init 2) [Op.ADD 1 10, Op.ADD 2 20, Op.ACCESS 1]).shelf.erase v ++
          [{ id := 3, popularity := 30,
             lastAccess := (run (init 2) [Op.ADD 1 10, Op.ADD 2 20, Op.ACCESS 1]).time }] ∧
      v ∉ (add (run (init 2) [Op.ADD 1 10, Op.ADD 2 20, Op.ACCESS 1]) 3 30).shelf ∧
      (∀ b ∈ (run (init 2) [Op.ADD 1 10, Op.ADD 2 20, Op.ACCESS 1]).shelf,
        b ≠ v → b ∈ (add (run (init 2) [Op.ADD 1 10, Op.ADD 2 20, Op.ACCESS 1]) 3 30).shelf) ∧
      ({ id := 3, popularity := 30,
         lastAccess := (run (init 2) [Op.ADD 1 10, Op.ADD 2 20, Op.ACCESS 1]).time } : Book) ∈
        (add (run (init 2) [Op.ADD 1 10, Op.ADD 2 20, Op.ACCESS 1]) 3 30).shelf ∧
      (add (run (init 2) [Op.ADD 1 10, Op.ADD 2 20, Op.ACCESS 1]) 3 30).shelf.length =
        (run (init 2) [Op.ADD 1 10, Op.ADD 2 20, Op.ACCESS 1]).shelf.length :=
  true_lru_eviction (run (init 2) [Op.ADD 1 10, Op.ADD 2 20, Op.ACCESS 1]) 3 30
    ⟨2, [Op.ADD 1 10, Op.ADD 2 20, Op.ACCESS 1], by decide, by decide⟩ (by decide) (by decide)

/-- C3 (uniqueness). In every reachable state (capacity at least one, every
command so far inside the array of 100 cells) no two cells of the shelf have the
same id: the list of ids has no repetition, and two positions that hold cells
with equal ids are the same position. -/
theorem uniqueness (s : Cache) (hreach : Reachable s) :
    (s.shelf.map Book.id).Nodup ∧
    ∀ (i j : Nat) (b c : Book),
      s.shelf[i]? = some b → s.shelf[j]? = some c → b.id = c.id → i = j := by
  have hids := (inv_of_reachable s hreach).2.2.1
  exact ⟨hids, fun i j b c hi hj h => key_index_unique Book.id s.shelf hids i j b c hi hj h⟩

theorem uniqueness_witness :
    ((run (init 2) [Op.ADD 1 10, Op.ADD 2 20, Op.ADD 1 30, Op.ADD 3 5]).shelf.map Book.id).Nodup ∧
    ∀ (i j : Nat) (b c : Book),
      (run (init 2) [Op.ADD 1 10, Op.ADD 2 20, Op.ADD 1 30, Op.ADD 3 5]).shelf[i]? = some b →
      (run (init 2) [Op.ADD 1 10, Op.ADD 2 20, Op.ADD 1 30, Op.ADD 3 5]).shelf[j]? = some c →
      b.id = c.id → i = j :=
  uniqueness (run (init 2) [Op.ADD 1 10, Op.ADD 2 20, Op.ADD 1 30, Op.ADD 3 5])
    ⟨2, [Op.ADD 1 10, Op.ADD 2 20, Op.ADD 1 30, Op.ADD 3 5], by decide, by decide⟩

/-- C4 (update-not-evict). In a reachable state (capacity at least one, every
command so far inside the array of 100 cells), full or not, `ADD x p` with an
id `x` that some cell has stays inside the array and finds that cell at a
position `j`, the only position holding id `x`; afterwards the number of cells
is the same, every position other than `j` holds the same cell as before,
position `j` holds `{x, p, old time}`, and the clock has advanced by one. -/
theorem update_not_evict (s : Cache) (x p : Int) (hreach : Reachable s)
    (hpres : ∃ b ∈ s.shelf, b.id = x) :
    stepChecked s (Op.ADD x p) = some (add s x p) ∧
    ∃ j, found s.shelf x = some j ∧ j < s.shelf.length ∧
      (∀ (i : Nat) (b : Book), s.shelf[i]? = some b → (b.id = x ↔ i = j)) ∧
      (add s x p).shelf.length = s.shelf.length ∧
      (∀ i : Nat, i ≠ j → (add s x p).shelf[i]? = s.shelf[i]?) ∧
      (add s x p).shelf[j]? = some { id := x, popularity := p, lastAccess := s.time } ∧
      (add s x p).time = s.time + 1 ∧ (add s x p).capacity = s.capacity := by
  have hids := (inv_of_reachable s hreach).2.2.1
  have hdef : stepChecked s (Op.ADD x p) = some (add s x p) := by
    apply stepChecked_add_hit s x p (reachable_length s hreach)
    intro hnone
    obtain ⟨b, hb, hbx⟩ := hpres
    exact (found_eq_none s.shelf x).1 hnone b hb hbx
  refine ⟨hdef, ?_⟩
  rcases shelf_cases s.shelf x with habs | ⟨pre, b, post, hs, hb, hpre⟩
  · obtain ⟨b, hb, hbx⟩ := hpres
    exact absurd hbx (habs b hb)
  · have hj : s.shelf[pre.length]? = some b := by rw [hs]; exact getElem?_mid pre b post
    rw [add_hit s x p pre b post hs hb hpre]
    refine ⟨pre.length, ?_, ?_, ?_, ?_, ?_, ?_, rfl, rfl⟩
    · rw [hs]; exact found_append x pre b post hb hpre
    · rw [hs]; simp
    · intro i c hi
      constructor
      · intro hc
        exact key_index_unique Book.id s.shelf hids i pre.length c b hi hj (hc.trans hb.symm)
      · intro hij
        subst hij
        rw [hj] at hi
        cases hi
        exact hb
    · rw [hs]; simp
    · intro i hi
      rw [hs]
      exact getElem?_mid_ne pre b _ post i hi
    · show (pre ++ _ :: post)[pre.length]? = _
      rw [getElem?_mid, hb]

theorem update_not_evict_witness :
    stepChecked (run (init 2) [Op.ADD 1 10, Op.ADD 2 20]) (Op.ADD 2 7) =
      some (add (run (init 2) [Op.ADD 1 10, Op.ADD 2 20]) 2 7) ∧
    ∃ j, found (run (init 2) [Op.ADD 1 10, Op.ADD 2 20]).shelf 2 = some j ∧
      j < (run (init 2) [Op.ADD 1 10, Op.ADD 2 20]).shelf.length ∧
      (∀ (i : Nat) (b : Book), (run (init 2) [Op.ADD 1 10, Op.ADD 2 20]).shelf[i]? = some b →
        (b.id = 2 ↔ i = j)) ∧
      (add (run (init 2) [Op.ADD 1 10, Op.ADD 2 20]) 2 7).shelf.length =
        (run (init 2) [Op.ADD 1 10, Op.ADD 2 20]).shelf.length ∧
      (∀ i : Nat, i ≠ j → (add (run (init 2) [Op.ADD 1 10, Op.ADD 2 20]) 2 7).shelf[i]? =
        (run (init 2) [Op.ADD 1 10, Op.ADD 2 20]).shelf[i]?) ∧
      (add (run (init 2) [Op.ADD 1 10, Op.ADD 2 20]) 2 7).shelf[j]? =
        some { id := 2, popularity := 7,
               lastAccess := (run (init 2) [Op.ADD 1 10, Op.ADD 2 20]).time } ∧
      (add (run (init 2) [Op.ADD 1 10, Op.ADD 2 20]) 2 7).time =
        (run (init 2) [Op.ADD 1 10, Op.ADD 2 20]).time + 1 ∧
      (add (run (init 2) [Op.ADD 1 10, Op.ADD 2 20]) 2 7).capacity =
        (run (init 2) [Op.ADD 1 10, Op.ADD 2 20]).capacity :=
  update_not_evict (run (init 2) [Op.ADD 1 10, Op.ADD 2 20]) 2 7
    ⟨2, [Op.ADD 1 10, Op.ADD 2 20], by decide, by decide⟩ (by decide)

/-- C5 (access result). For every state and id, the search of `ACCESS x` ends
with `found = -1` exactly when no cell has id `x`, and then `-1` is printed;
otherwise `found` is the first position, in storage order, of a cell with id `x`
and the popularity stored there is printed. On the empty shelf every `ACCESS`
is a miss. -/
theorem access_result (s : Cache) (x : Int) (cap : Int) :
    (found s.shelf x = none ↔ ∀ b ∈ s.shelf, b.id ≠ x) ∧
    (found s.shelf x = none → (access s x).2 = -1) ∧
    (∀ j, found s.shelf x = some j →
      ∃ b, s.shelf[j]? = some b ∧ b.id = x ∧
        (∀ (i : Nat) (c : Book), i < j → s.shelf[i]? = some c → c.id ≠ x) ∧
        (access s x).2 = b.popularity) ∧
    found (init cap).shelf x = none ∧ access (init cap) x = (init cap, -1) := by
  refine ⟨found_eq_none s.shelf x, ?_, ?_, rfl, rfl⟩
  · intro h
    rw [access_miss s x ((found_eq_none s.shelf x).1 h)]
  · intro j hj
    obtain ⟨pre, b, post, hs, hk, hb, hpre⟩ := found_eq_some s.shelf x j hj
    subst hk
    refine ⟨b, by rw [hs]; exact getElem?_mid pre b post, hb, ?_, ?_⟩
    · intro i c hi hc
      rw [hs, List.getElem?_append_left hi] at hc
      exact hpre c (List.getElem?_mem hc)
    · rw [access_hit s x pre b post hs hb hpre]

/-- C7 (a miss is clock-neutral). For every state and every id that no cell has,
`ACCESS x` leaves the whole state unchanged (same clock, same cells at the same
positions, same capacity) and prints `-1`. -/
theorem miss_clock_neutral (s : Cache) (x : Int) (habs : ∀ b ∈ s.shelf, b.id ≠ x) :
    (access s x).1 = s ∧ (access s x).1.time = s.time ∧
    (access s x).1.shelf = s.shelf ∧ (access s x).2 = -1 := by
  rw [access_miss s x habs]
  exact ⟨rfl, rfl, rfl, rfl⟩

theorem miss_clock_neutral_witness :
    (access (run (init 2) [Op.ADD 1 10, Op.ADD 2 20]) 99).1 =
      run (init 2) [Op.ADD 1 10, Op.ADD 2 20] ∧
    (access (run (init 2) [Op.ADD 1 10, Op.ADD 2 20]) 99).1.time =
      (run (init 2) [Op.ADD 1 10, Op.ADD 2 20]).time ∧
    (access (run (init 2) [Op.ADD 1 10, Op.ADD 2 20]) 99).1.shelf =
      (run (init 2) [Op.ADD 1 10, Op.ADD 2 20]).shelf ∧
    (access (run (init 2) [Op.ADD 1 10, Op.ADD 2 20]) 99).2 = -1 :=
  miss_clock_neutral (run (init 2) [Op.ADD 1 10, Op.ADD 2 20]) 99 (by decide)

/-- An `ACCESS x` on a shelf that splits at the first cell with id `x` is a hit
and prints the popularity stored in that cell. -/
theorem access_first (s : Cache) (x : Int) (pre : List Book) (b : Book) (post : List Book)
    (hs : s.shelf = pre ++ b :: post) (hb : b.id = x) (hpre : ∀ c ∈ pre, c.id ≠ x) :
    found s.shelf x ≠ none ∧ (access s x).2 = b.popularity := by
  constructor
  · rw [hs, found_append x pre b post hb hpre]
    simp
  · rw [access_hit s x pre b post hs hb hpre]

set_option maxRecDepth 1000000 in
/-- C8, as stated, fails. With capacity 101, the commands `ADD 0 0, ADD 1 0, …,
ADD 99 0` stay inside the array and leave a reachable state with 100 cells; the
next command `ADD 100 7`, of an id that no cell has, writes the new cell at
subscript 100, outside `struct Book shelf[100]`, so it has no defined result and
no `ACCESS 100` after it returns 7. -/
theorem read_your_write_past_array :
    (1 : Int) ≤ 101 ∧
    runChecked (init 101) ((List.range 100).map (fun (i : Nat) => Op.ADD (i : Int) 0)) =
      some (run (init 101) ((List.range 100).map (fun (i : Nat) => Op.ADD (i : Int) 0))) ∧
    (100 : Int) ∈ stepIndices
      (run (init 101) ((List.range 100).map (fun (i : Nat) => Op.ADD (i : Int) 0))) (Op.ADD 100 7) ∧
    stepChecked
      (run (init 101) ((List.range 100).map (fun (i : Nat) => Op.ADD (i : Int) 0))) (Op.ADD 100 7) =
      none := by
  decide

/-- C8, amended (read-your-write inside the array). In a reachable state with a
capacity of at most 100 (more generally: capacity at most 100, or fewer than 100
cells stored, or the id already present), for every id `x` and popularity `p`,
`ADD x p` stays inside the array and an `ACCESS x` processed right after it
stays inside the array, is a hit and prints `p`, whichever path the `ADD` took;
if `x` was already present the `ADD` keeps the number of cells. With capacity 1,
`ADD 1 5; ADD 1 9` leaves one cell and a following `ACCESS 1` prints 9. -/
theorem read_your_write (s : Cache) (x p : Int) (hreach : Reachable s)
    (hsafe : s.capacity ≤ 100 ∨ s.shelf.length < 100 ∨ found s.shelf x ≠ none) :
    stepChecked s (Op.ADD x p) = some (add s x p) ∧
    stepChecked (add s x p) (Op.ACCESS x) = some (access (add s x p) x).1 ∧
    found (add s x p).shelf x ≠ none ∧ (access (add s x p) x).2 = p ∧
    ((∃ b ∈ s.shelf, b.id = x) → (add s x p).shelf.length = s.shelf.length) ∧
    runChecked (init 1) [Op.ADD 1 5, Op.ADD 1 9, Op.ACCESS 1] =
      some (run (init 1) [Op.ADD 1 5, Op.ADD 1 9, Op.ACCESS 1]) ∧
    (run (init 1) [Op.ADD 1 5, Op.ADD 1 9]).shelf.length = 1 ∧
    printed (init 1) [Op.ADD 1 5, Op.ADD 1 9, Op.ACCESS 1] = [9] := by
  have hinv := inv_of_reachable s hreach
  have hlen := reachable_length s hreach
  have hcap := hinv.1
  have hdef : stepChecked s (Op.ADD x p) = some (add s x p) := by
    rcases hsafe with h | h | h
    · exact stepChecked_of_cap s (Op.ADD x p) hinv h
    · by_cases hf : found s.shelf x = none
      · by_cases hfull : (s.shelf.length : Int) = s.capacity
        · exact stepChecked_add_full s x p hinv hlen hfull
        · exact stepChecked_add_room s x p h hf hfull
      · exact stepChecked_add_hit s x p hlen hf
    · exact stepChecked_add_hit s x p hlen h
  have hdef2 : stepChecked (add s x p) (Op.ACCESS x) = some (access (add s x p) x).1 :=
    stepChecked_access (add s x p) x (stepChecked_length s (add s x p) (Op.ADD x p) hinv hlen hdef)
  refine ⟨hdef, hdef2, ?_⟩
  rcases shelf_cases s.shelf x with habs | ⟨pre, b, post, hs, hb, hpre⟩
  · have hno : ¬ ∃ b ∈ s.shelf, b.id = x := by
      rintro ⟨b, hb, hbx⟩
      exact habs b hb hbx
    by_cases hfull : (s.shelf.length : Int) = s.capacity
    · obtain ⟨pre, v, post, hs, hmin, _, _⟩ :=
        minIndex_spec s.shelf (nonempty_of_full s hcap hfull)
      have hrest : ∀ c ∈ pre ++ post, c.id ≠ x := by
        intro c hc
        apply habs c
        rw [hs]
        simp only [List.mem_append, List.mem_cons] at hc ⊢
        tauto
      have h := access_first (add s x p) x (pre ++ post)
        { id := x, popularity := p, lastAccess := s.time } []
        (by rw [add_full s x p pre v post habs hfull hs hmin]) rfl hrest
      exact ⟨h.1, h.2, fun hp => absurd hp hno, by decide, by decide, by decide⟩
    · have h := access_first (add s x p) x s.shelf
        { id := x, popularity := p, lastAccess := s.time } []
        (by rw [add_room s x p habs hfull]) rfl habs
      exact ⟨h.1, h.2, fun hp => absurd hp hno, by decide, by decide, by decide⟩
  · have h := access_first (add s x p) x pre
      { id := b.id, popularity := p, lastAccess := s.time } post
      (by rw [add_hit s x p pre b post hs hb hpre]) hb hpre
    refine ⟨h.1, h.2, fun _ => ?_, by decide, by decide, by decide⟩
    rw [add_hit s x p pre b post hs hb hpre, hs]
    simp

theorem read_your_write_witness :
    stepChecked (run (init 1) [Op.ADD 1 5]) (Op.ADD 1 9) =
      some (add (run (init 1) [Op.ADD 1 5]) 1 9) ∧
    stepChecked (add (run (init 1) [Op.ADD 1 5]) 1 9) (Op.ACCESS 1) =
      some (access (add (run (init 1) [Op.ADD 1 5]) 1 9) 1).1 ∧
    found (add (run (init 1) [Op.ADD 1 5]) 1 9).shelf 1 ≠ none ∧
    (access (add (run (init 1) [Op.ADD 1 5]) 1 9) 1).2 = 9 ∧
    (add (run (init 1) [Op.ADD 1 5]) 1 9).shelf.length = (run (init 1) [Op.ADD 1 5]).shelf.length :=
  ⟨(read_your_write (run (init 1) [Op.ADD 1 5]) 1 9 ⟨1, [Op.ADD 1 5], by decide, by decide⟩
      (Or.inl (by decide))).1,
   (read_your_write (run (init 1) [Op.ADD 1 5]) 1 9 ⟨1, [Op.ADD 1 5], by decide, by decide⟩
      (Or.inl (by decide))).2.1,
   (read_your_write (run (init 1) [Op.ADD 1 5]) 1 9 ⟨1, [Op.ADD 1 5], by decide, by decide⟩
      (Or.inl (by decide))).2.2.1,
   (read_your_write (run (init 1) [Op.ADD 1 5]) 1 9 ⟨1, [Op.ADD 1 5], by decide, by decide⟩
      (Or.inl (by decide))).2.2.2.1,
   (read_your_write (run (init 1) [Op.ADD 1 5]) 1 9 ⟨1, [Op.ADD 1 5], by decide, by decide⟩
      (Or.inl (by decide))).2.2.2.2.1 (by decide)⟩

/-- C9, as stated, fails. With capacity 1, after `ADD 1 -1` the id 1 is present
and the id 2 is absent, yet `ACCESS 2` (a miss) and `ACCESS 1` (a hit) print the
same number `-1`. -/
theorem miss_prints_like_hit :
    (∃ e ∈ (run (init 1) [Op.ADD 1 (-1)]).shelf, e.id = 1) ∧
    (∀ e ∈ (run (init 1) [Op.ADD 1 (-1)]).shelf, e.id ≠ 2) ∧
    (access (run (init 1) [Op.ADD 1 (-1)]) 2).2 = (access (run (init 1) [Op.ADD 1 (-1)]) 1).2 ∧
    printed (init 1) [Op.ADD 1 (-1), Op.ACCESS 2, Op.ACCESS 1] = [-1, -1] := by
  decide

/-- C9, amended. For every state, every id `a` that some cell has and every id
`b` that no cell has: `ACCESS b` takes the miss branch and prints `-1`,
`ACCESS a` takes the hit branch and prints the popularity of the first cell with
id `a`, and the two printed numbers differ exactly when that popularity is not
`-1`. -/
theorem miss_distinct_iff (s : Cache) (a b : Int) (hpres : ∃ e ∈ s.shelf, e.id = a)
    (habs : ∀ e ∈ s.shelf, e.id ≠ b) :
    found s.shelf b = none ∧ (access s b).2 = -1 ∧
    ∃ (j : Nat) (e : Book), found s.shelf a = some j ∧ s.shelf[j]? = some e ∧ e.id = a ∧
      (access s a).2 = e.popularity ∧
      ((access s b).2 ≠ (access s a).2 ↔ e.popularity ≠ -1) := by
  have hb : (access s b).2 = -1 := by rw [access_miss s b habs]
  refine ⟨(found_eq_none s.shelf b).2 habs, hb, ?_⟩
  rcases shelf_cases s.shelf a with hno | ⟨pre, e, post, hs, he, hpre⟩
  · obtain ⟨e, he, hea⟩ := hpres
    exact absurd hea (hno e he)
  · have ha : (access s a).2 = e.popularity := by
      rw [access_hit s a pre e post hs he hpre]
    refine ⟨pre.length, e, ?_, ?_, he, ha, ?_⟩
    · rw [hs]; exact found_append a pre e post he hpre
    · rw [hs]; exact getElem?_mid pre e post
    · rw [hb, ha]
      exact ⟨fun h => Ne.symm h, fun h => Ne.symm h⟩

theorem miss_distinct_iff_witness :
    found (run (init 2) [Op.ADD 1 10, Op.ADD 2 20]).shelf 3 = none ∧
    (access (run (init 2) [Op.ADD 1 10, Op.ADD 2 20]) 3).2 = -1 ∧
    ∃ (j : Nat) (e : Book),
      found (run (init 2) [Op.ADD 1 10, Op.ADD 2 20]).shelf 2 = some j ∧
      (run (init 2) [Op.ADD 1 10, Op.ADD 2 20]).shelf[j]? = some e ∧ e.id = 2 ∧
      (access (run (init 2) [Op.ADD 1 10, Op.ADD 2 20]) 2).2 = e.popularity ∧
      ((access (run (init 2) [Op.ADD 1 10, Op.ADD 2 20]) 3).2 ≠
          (access (run (init 2) [Op.ADD 1 10, Op.ADD 2 20]) 2).2 ↔ e.popularity ≠ -1) :=
  miss_distinct_iff (run (init 2) [Op.ADD 1 10, Op.ADD 2 20]) 2 3 (by decide) (by decide)

theorem shielded_touch (x y : Int) (s : Cache) (pre : List Book) (b : Book) (post : List Book)
    (h : Inv s) (hs : s.shelf = pre ++ b :: post) (hb : b.id = x)
    (w : Book) (hw : w ∈ pre ++ post) :
    Shielded x { capacity := s.capacity
                 shelf := pre ++ { id := b.id, popularity := y, lastAccess := s.time } :: post
                 time := s.time + 1 } := by
  obtain ⟨_, _, _, _, hfresh⟩ := h
  refine ⟨{ id := b.id, popularity := y, lastAccess := s.time }, w, ?_, ?_, hb, ?_⟩
  · simp
  · simp only [List.mem_append, List.mem_cons] at hw ⊢
    tauto
  · apply hfresh w
    rw [hs]
    simp only [List.mem_append, List.mem_cons] at hw ⊢
    tauto

theorem shielded_other (x : Int) (s : Cache) (pre : List Book) (b : Book) (post : List Book)
    (h : Inv s) (hs : s.shelf = pre ++ b :: post) (hb : b.id = x) (hsh : Shielded x s) :
    ∃ w, w ∈ pre ++ post := by
  obtain ⟨_, _, hids, _, _⟩ := h
  obtain ⟨bx, bw, hbx, hbw, hbxid, hlt⟩ := hsh
  have hbmem : b ∈ s.shelf := by rw [hs]; simp
  have hbxb : bx = b := List.inj_on_of_nodup_map hids hbx hbmem (hbxid.trans hb.symm)
  subst hbxb
  refine ⟨bw, ?_⟩
  rw [hs] at hbw
  simp only [List.mem_append, List.mem_cons] at hbw ⊢
  rcases hbw with hbw | hbw | hbw
  · exact Or.inl hbw
  · subst hbw; omega
  · exact Or.inr hbw

theorem shielded_append (x : Int) (s : Cache) (c : Book) (t : Int) (hsh : Shielded x s) :
    Shielded x { capacity := s.capacity, shelf := s.shelf ++ [c], time := t } := by
  obtain ⟨bx, bw, hbx, hbw, hbxid, hlt⟩ := hsh
  exact ⟨bx, bw, List.mem_append_left _ hbx, List.mem_append_left _ hbw, hbxid, hlt⟩

theorem shielded_present (x : Int) (s : Cache) (hsh : Shielded x s) :
    ¬ ∀ b ∈ s.shelf, b.id ≠ x := by
  obtain ⟨bx, _, hbx, _, hbxid, _⟩ := hsh
  exact fun h => h bx hbx hbxid

theorem shielded_step (x : Int) (s : Cache) (op : Op) (h : Inv s) (hsh : Shielded x s)
    (hq : quiet x s op = true) : Shielded x (step s op) := by
  cases op with
  | ADD z y =>
    simp only [quiet, Bool.or_eq_true, decide_eq_true_eq, Bool.and_eq_true,
      Option.isNone_iff_eq_none] at hq
    show Shielded x (add s z y)
    rcases hq with hz | ⟨hnone, hroom⟩
    · subst hz
      rcases shelf_cases s.shelf z with habs | ⟨pre, b, post, hs, hb, hpre⟩
      · exact absurd habs (shielded_present z s hsh)
      · obtain ⟨w, hw⟩ := shielded_other z s pre b post h hs hb hsh
        rw [add_hit s z y pre b post hs hb hpre]
        exact shielded_touch z y s pre b post h hs hb w hw
    · rw [add_room s z y ((found_eq_none s.shelf z).1 hnone) hroom]
      exact shielded_append x s _ _ hsh
  | ACCESS z =>
    simp only [quiet, Bool.or_eq_true, decide_eq_true_eq, Option.isNone_iff_eq_none] at hq
    show Shielded x (access s z).1
    rcases hq with hz | hnone
    · subst hz
      rcases shelf_cases s.shelf z with habs | ⟨pre, b, post, hs, hb, hpre⟩
      · exact absurd habs (shielded_present z s hsh)
      · obtain ⟨w, hw⟩ := shielded_other z s pre b post h hs hb hsh
        rw [access_hit s z pre b post hs hb hpre]
        exact shielded_touch z b.popularity s pre b post h hs hb w hw
    · rw [access_miss s z ((found_eq_none s.shelf z).1 hnone)]
      exact hsh

theorem shielded_run (x : Int) (s : Cache) (ops : List Op) (h : Inv s) (hsh : Shielded x s)
    (hq : quietRun x s ops = true) : Shielded x (run s ops) := by
  induction ops generalizing s with
  | nil => exact hsh
  | cons op ops ih =>
    simp only [quietRun, Bool.and_eq_true] at hq
    exact ih (step s op) (inv_step s op h) (shielded_step x s op h hsh hq.1) hq.2

/-- When the shelf is full and a cell with id `x` is younger than some other
cell, the eviction of an `ADD` of an absent id removes a cell whose id is not
`x`, and a cell with id `x` is still on the shelf afterwards. -/
theorem evict_spares (x z p : Int) (t : Cache) (h : Inv t) (hsh : Shielded x t)
    (hfull : (t.shelf.length : Int) = t.capacity) (habs : ∀ b ∈ t.shelf, b.id ≠ z) :
    (t.shelf.getD (minIndex t.shelf) default).id ≠ x ∧
    ∃ b ∈ (add t z p).shelf, b.id = x := by
  obtain ⟨hcap, _, hids, hstamps, _⟩ := h
  obtain ⟨pre, v, post, hs, hmin, hvpre, hvpost, hlt⟩ :=
    minIndex_strict t.shelf (nonempty_of_full t hcap hfull) hstamps
  obtain ⟨bx, bw, hbx, hbw, hbxid, hbwlt⟩ := hsh
  have hvmem : v ∈ t.shelf := by rw [hs]; simp
  have hvle : ∀ c ∈ t.shelf, v.lastAccess ≤ c.lastAccess := by
    intro c hc
    rw [hs] at hc
    simp only [List.mem_append, List.mem_cons] at hc
    rcases hc with hc | hc | hc
    · exact le_of_lt (hlt c (List.mem_append_left _ hc))
    · subst hc; exact le_rfl
    · exact le_of_lt (hlt c (List.mem_append_right _ hc))
  have hvx : v.id ≠ x := by
    intro hv
    have hvb : v = bx := List.inj_on_of_nodup_map hids hvmem hbx (hv.trans hbxid.symm)
    subst hvb
    have := hvle bw hbw
    omega
  have hget : t.shelf.getD (minIndex t.shelf) default = v := by
    rw [hmin, hs]; exact getD_mid pre v post
  refine ⟨by rw [hget]; exact hvx, bx, ?_, hbxid⟩
  rw [add_full t z p pre v post habs hfull hs hmin]
  have hbxv : bx ≠ v := fun e => hvx (e ▸ hbxid)
  rw [hs] at hbx
  simp only [List.mem_append, List.mem_cons, List.mem_singleton] at hbx ⊢
  tauto

/-- C6 (touch-on-access). In a reachable state (capacity at least one, every
command so far inside the array of 100 cells), an `ACCESS x` that hits stays
inside the array and sets the `lastAccess` of the cell it found to the old clock
value, which is strictly greater than the previous `lastAccess` of that cell and
strictly greater than the `lastAccess` of every other cell. Consequently, if the
shelf held at least two cells and the commands processed next (`mid`, all inside
the array) neither evict nor re-stamp a cell other than the one with id `x`,
then a following `ADD` of an absent id on the full shelf stays inside the array,
its eviction removes a cell whose id is not `x`, and a cell with id `x` is still
on the shelf after that `ADD`. -/
theorem touch_on_access (s : Cache) (x : Int) (hreach : Reachable s)
    (hpres : ∃ b ∈ s.shelf, b.id = x) :
    stepChecked s (Op.ACCESS x) = some (access s x).1 ∧
    (∃ (j : Nat) (old : Book), found s.shelf x = some j ∧ s.shelf[j]? = some old ∧
      (access s x).1.shelf[j]? =
        some { id := old.id, popularity := old.popularity, lastAccess := s.time } ∧
      old.lastAccess < s.time ∧
      (∀ (i : Nat) (c : Book), i ≠ j → (access s x).1.shelf[i]? = some c →
        c.lastAccess < s.time)) ∧
    (2 ≤ s.shelf.length → ∀ (mid : List Op) (t : Cache) (z p : Int),
      quietRun x (access s x).1 mid = true →
      runChecked (access s x).1 mid = some t →
      (t.shelf.length : Int) = t.capacity →
      (∀ b ∈ t.shelf, b.id ≠ z) →
      stepChecked t (Op.ADD z p) = some (add t z p) ∧
      (t.shelf.getD (minIndex t.shelf) default).id ≠ x ∧
      ∃ b ∈ (add t z p).shelf, b.id = x) := by
  have hinv := inv_of_reachable s hreach
  have hlen := reachable_length s hreach
  have hfresh := hinv.2.2.2.2
  refine ⟨stepChecked_access s x hlen, ?_⟩
  rcases shelf_cases s.shelf x with habs | ⟨pre, b, post, hs, hb, hpre⟩
  · obtain ⟨b, hb, hbx⟩ := hpres
    exact absurd hbx (habs b hb)
  · have hacc := access_hit s x pre b post hs hb hpre
    have hbmem : b ∈ s.shelf := by rw [hs]; simp
    constructor
    · refine ⟨pre.length, b, ?_, ?_, ?_, hfresh b hbmem, ?_⟩
      · rw [hs]; exact found_append x pre b post hb hpre
      · rw [hs]; exact getElem?_mid pre b post
      · rw [hacc]; exact getElem?_mid pre _ post
      · intro i c hi hc
        rw [hacc] at hc
        have hc2 : (pre ++ b :: post)[i]? = some c := by
          rw [← hc]; exact (getElem?_mid_ne pre b _ post i hi).symm
        apply hfresh c
        rw [hs]
        exact List.getElem?_mem hc2
    · intro h2 mid t z p hq hrun hfull habs
      have hw : ∃ w, w ∈ pre ++ post := by
        have hlen : 1 ≤ (pre ++ post).length := by
          rw [hs] at h2
          simp only [List.length_append, List.length_cons] at h2 ⊢
          omega
        cases hpp : pre ++ post with
        | nil => rw [hpp] at hlen; simp at hlen
        | cons w rest => exact ⟨w, List.mem_cons_self _ _⟩
      obtain ⟨w, hw⟩ := hw
      have hinv1 : Inv (access s x).1 := inv_access s x hinv
      have hlen1 : (access s x).1.shelf.length ≤ 100 := by
        rw [access_length]; exact hlen
      have hsh1 : Shielded x (access s x).1 := by
        rw [hacc]
        exact shielded_touch x b.popularity s pre b post hinv hs hb w hw
      have ht : run (access s x).1 mid = t := runChecked_eq_run _ _ mid hrun
      have hinvt : Inv t := ht ▸ inv_run _ mid hinv1
      have hlent : t.shelf.length ≤ 100 := runChecked_length _ t mid hinv1 hlen1 hrun
      have hsht : Shielded x t := ht ▸ shielded_run x _ mid hinv1 hsh1 hq
      exact ⟨stepChecked_add_full t z p hinvt hlent hfull,
        evict_spares x z p t hinvt hsht hfull habs⟩

theorem touch_on_access_witness :
    stepChecked (run (init 2) [Op.ADD 1 10, Op.ADD 2 20]) (Op.ACCESS 1) =
      some (access (run (init 2) [Op.ADD 1 10, Op.ADD 2 20]) 1).1 ∧
    (∃ (j : Nat) (old : Book),
      found (run (init 2) [Op.ADD 1 10, Op.ADD 2 20]).shelf 1 = some j ∧
      (run (init 2) [Op.ADD 1 10, Op.ADD 2 20]).shelf[j]? = some old ∧
      (access (run (init 2) [Op.ADD 1 10, Op.ADD 2 20]) 1).1.shelf[j]? =
        some { id := old.id, popularity := old.popularity,
               lastAccess := (run (init 2) [Op.ADD 1 10, Op.ADD 2 20]).time } ∧
      old.lastAccess < (run (init 2) [Op.ADD 1 10, Op.ADD 2 20]).time ∧
      (∀ (i : Nat) (c : Book), i ≠ j →
        (access (run (init 2) [Op.ADD 1 10, Op.ADD 2 20]) 1).1.shelf[i]? = some c →
        c.lastAccess < (run (init 2) [Op.ADD 1 10, Op.ADD 2 20]).time)) ∧
    stepChecked (run (access (run (init 2) [Op.ADD 1 10, Op.ADD 2 20]) 1).1
        [Op.ACCESS 99, Op.ADD 1 11]) (Op.ADD 3 30) =
      some (add (run (access (run (init 2) [Op.ADD 1 10, Op.ADD 2 20]) 1).1
        [Op.ACCESS 99, Op.ADD 1 11]) 3 30) ∧
    ((run (access (run (init 2) [Op.ADD 1 10, Op.ADD 2 20]) 1).1
        [Op.ACCESS 99, Op.ADD 1 11]).shelf.getD
      (minIndex (run (access (run (init 2) [Op.ADD 1 10, Op.ADD 2 20]) 1).1
        [Op.ACCESS 99, Op.ADD 1 11]).shelf) default).id ≠ 1 ∧
    ∃ b ∈ (add (run (access (run (init 2) [Op.ADD 1 10, Op.ADD 2 20]) 1).1
        [Op.ACCESS 99, Op.ADD 1 11]) 3 30).shelf, b.id = 1 :=
  ⟨(touch_on_access (run (init 2) [Op.ADD 1 10, Op.ADD 2 20]) 1
      ⟨2, [Op.ADD 1 10, Op.ADD 2 20], by decide, by decide⟩ (by decide)).1,
   (touch_on_access (run (init 2) [Op.ADD 1 10, Op.ADD 2 20]) 1
      ⟨2, [Op.ADD 1 10, Op.ADD 2 20], by decide, by decide⟩ (by decide)).2.1,
   (touch_on_access (run (init 2) [Op.ADD 1 10, Op.ADD 2 20]) 1
      ⟨2, [Op.ADD 1 10, Op.ADD 2 20], by decide, by decide⟩ (by decide)).2.2 (by decide)
      [Op.ACCESS 99, Op.ADD 1 11]
      (run (access (run (init 2) [Op.ADD 1 10, Op.ADD 2 20]) 1).1 [Op.ACCESS 99, Op.ADD 1 11])
      3 30 (by decide) (by decide) (by decide) (by decide)⟩

end Bookshelf

namespace Bookshelf

/-! ## The clock -/

theorem add_time (s : Cache) (x y : Int) : (add s x y).time = s.time + 1 := by
  unfold add
  split <;> rfl

end Bookshelf

namespace Bookshelf

/-! ## Frame of a hit, and the eviction step on any shelf -/

theorem eraseIdx_mid (pre : List Book) (v : Book) (post : List Book) :
    (pre ++ v :: post).eraseIdx pre.length = pre ++ post := by
  rw [List.eraseIdx_append_of_length_le (Nat.le_refl _)]
  simp

/-- C13 (access touches the timestamp only). For every state and every id `x`
that some cell has, `ACCESS x` finds the first cell with id `x` at a position
`j` and changes nothing but the `lastAccess` of that cell, which becomes the old
clock value, and the clock, which grows by one: the shelf afterwards is the old
shelf with position `j` overwritten by the old cell carrying the new timestamp,
so the number of cells, their order, every id, every popularity and the
`lastAccess` of every other position are the same, as is the capacity. -/
theorem access_touches_timestamp_only (s : Cache) (x : Int)
    (hpres : ∃ b ∈ s.shelf, b.id = x) :
    ∃ (j : Nat) (old : Book), found s.shelf x = some j ∧ s.shelf[j]? = some old ∧
      (∀ (i : Nat) (c : Book), i < j → s.shelf[i]? = some c → c.id ≠ x) ∧
      (access s x).1.shelf =
        s.shelf.set j { id := old.id, popularity := old.popularity, lastAccess := s.time } ∧
      (access s x).1.shelf.length = s.shelf.length ∧
      (∀ i : Nat, i ≠ j → (access s x).1.shelf[i]? = s.shelf[i]?) ∧
      (access s x).1.shelf[j]? =
        some { id := old.id, popularity := old.popularity, lastAccess := s.time } ∧
      (access s x).1.shelf.map Book.id = s.shelf.map Book.id ∧
      (access s x).1.shelf.map Book.popularity = s.shelf.map Book.popularity ∧
      (access s x).1.capacity = s.capacity ∧
      (access s x).1.time = s.time + 1 ∧
      (access s x).2 = old.popularity := by
  rcases shelf_cases s.shelf x with habs | ⟨pre, b, post, hs, hb, hpre⟩
  · obtain ⟨b, hb, hbx⟩ := hpres
    exact absurd hbx (habs b hb)
  · rw [access_hit s x pre b post hs hb hpre]
    refine ⟨pre.length, b, ?_, ?_, ?_, ?_, ?_, ?_, ?_, ?_, ?_, rfl, rfl, rfl⟩
    · rw [hs]; exact found_append x pre b post hb hpre
    · rw [hs]; exact getElem?_mid pre b post
    · intro i c hi hc
      rw [hs, List.getElem?_append_left hi] at hc
      exact hpre c (List.getElem?_mem hc)
    · rw [hs, set_mid]
    · rw [hs]; simp
    · intro i hi
      rw [hs]
      exact getElem?_mid_ne pre b _ post i hi
    · exact getElem?_mid pre _ post
    · rw [hs]; simp
    · rw [hs]; simp

theorem access_touches_timestamp_only_witness :
    ∃ (j : Nat) (old : Book),
      found (run (init 2) [Op.ADD 1 10, Op.ADD 2 20]).shelf 2 = some j ∧
      (run (init 2) [Op.ADD 1 10, Op.ADD 2 20]).shelf[j]? = some old ∧
      (∀ (i : Nat) (c : Book), i < j →
        (run (init 2) [Op.ADD 1 10, Op.ADD 2 20]).shelf[i]? = some c → c.id ≠ 2) ∧
      (access (run (init 2) [Op.ADD 1 10, Op.ADD 2 20]) 2).1.shelf =
        (run (init 2) [Op.ADD 1 10, Op.ADD 2 20]).shelf.set j
          { id := old.id, popularity := old.popularity,
            lastAccess := (run (init 2) [Op.ADD 1 10, Op.ADD 2 20]).time } ∧
      (access (run (init 2) [Op.ADD 1 10, Op.ADD 2 20]) 2).1.shelf.length =
        (run (init 2) [Op.ADD 1 10, Op.ADD 2 20]).shelf.length ∧
      (∀ i : Nat, i ≠ j → (access (run (init 2) [Op.ADD 1 10, Op.ADD 2 20]) 2).1.shelf[i]? =
        (run (init 2) [Op.ADD 1 10, Op.ADD 2 20]).shelf[i]?) ∧
      (access (run (init 2) [Op.ADD 1 10, Op.ADD 2 20]) 2).1.shelf[j]? =
        some { id := old.id, popularity := old.popularity,
               lastAccess := (run (init 2) [Op.ADD 1 10, Op.ADD 2 20]).time } ∧
      (access (run (init 2) [Op.ADD 1 10, Op.ADD 2 20]) 2).1.shelf.map Book.id =
        (run (init 2) [Op.ADD 1 10, Op.ADD 2 20]).shelf.map Book.id ∧
      (access (run (init 2) [Op.ADD 1 10, Op.ADD 2 20]) 2).1.shelf.map Book.popularity =
        (run (init 2) [Op.ADD 1 10, Op.ADD 2 20]).shelf.map Book.popularity ∧
      (access (run (init 2) [Op.ADD 1 10, Op.ADD 2 20]) 2).1.capacity =
        (run (init 2) [Op.ADD 1 10, Op.ADD 2 20]).capacity ∧
      (access (run (init 2) [Op.ADD 1 10, Op.ADD 2 20]) 2).1.time =
        (run (init 2) [Op.ADD 1 10, Op.ADD 2 20]).time + 1 ∧
      (access (run (init 2) [Op.ADD 1 10, Op.ADD 2 20]) 2).2 = old.popularity :=
  access_touches_timestamp_only (run (init 2) [Op.ADD 1 10, Op.ADD 2 20]) 2 (by decide)

/-- C18 (eviction step on an arbitrary shelf). For every state, reachable or not
(timestamps may repeat), with `count = capacity ≥ 1` and every id `x` that no
cell has, `ADD x p` yields the old cells with the one at position `k` erased,
the others in their previous order, followed by the new cell `{x, p, old time}`
in last position, where `k = minIndex` is the first position that attains the
minimum `lastAccess`: no cell is older than cell `k` and every cell before
position `k` is strictly younger. -/
theorem eviction_step (s : Cache) (x p : Int) (hcap : 1 ≤ s.capacity)
    (hfull : (s.shelf.length : Int) = s.capacity) (habs : ∀ b ∈ s.shelf, b.id ≠ x) :
    ∃ k : Nat, k < s.shelf.length ∧ minIndex s.shelf = k ∧
      (∀ i : Nat, i < s.shelf.length →
        (s.shelf.getD k default).lastAccess ≤ (s.shelf.getD i default).lastAccess) ∧
      (∀ i : Nat, i < k →
        (s.shelf.getD k default).lastAccess < (s.shelf.getD i default).lastAccess) ∧
      (add s x p).shelf =
        s.shelf.eraseIdx k ++ [{ id := x, popularity := p, lastAccess := s.time }] ∧
      (add s x p).shelf.length = s.shelf.length ∧
      (add s x p).time = s.time + 1 := by
  have hne := nonempty_of_full s hcap hfull
  obtain ⟨hk, hle, hlt⟩ := minIndex_index_spec s.shelf hne
  obtain ⟨pre, v, post, hs, hmin, _, _⟩ := minIndex_spec s.shelf hne
  refine ⟨minIndex s.shelf, hk, rfl, hle, hlt, ?_, ?_, add_time s x p⟩
  · rw [add_full s x p pre v post habs hfull hs hmin]
    show _ = s.shelf.eraseIdx (minIndex s.shelf) ++ _
    rw [hmin, hs, eraseIdx_mid]
  · rw [add_full s x p pre v post habs hfull hs hmin, hs]
    simp only [List.length_append, List.length_cons, List.length_nil]
    omega

theorem eviction_step_witness :
    ∃ k : Nat,
      k < ({ capacity := 3
             shelf := [⟨1, 10, 5⟩, ⟨2, 20, 3⟩, ⟨3, 30, 3⟩]
             time := 9 } : Cache).shelf.length ∧
      minIndex ({ capacity := 3
                  shelf := [⟨1, 10, 5⟩, ⟨2, 20, 3⟩, ⟨3, 30, 3⟩]
                  time := 9 } : Cache).shelf = k ∧
      (∀ i : Nat, i < ({ capacity := 3
                         shelf := [⟨1, 10, 5⟩, ⟨2, 20, 3⟩, ⟨3, 30, 3⟩]
                         time := 9 } : Cache).shelf.length →
        (({ capacity := 3
            shelf := [⟨1, 10, 5⟩, ⟨2, 20, 3⟩, ⟨3, 30, 3⟩]
            time := 9 } : Cache).shelf.getD k default).lastAccess ≤
        (({ capacity := 3
            shelf := [⟨1, 10, 5⟩, ⟨2, 20, 3⟩, ⟨3, 30, 3⟩]
            time := 9 } : Cache).shelf.getD i default).lastAccess) ∧
      (∀ i : Nat, i < k →
        (({ capacity := 3
            shelf := [⟨1, 10, 5⟩, ⟨2, 20, 3⟩, ⟨3, 30, 3⟩]
            time := 9 } : Cache).shelf.getD k default).lastAccess <
        (({ capacity := 3
            shelf := [⟨1, 10, 5⟩, ⟨2, 20, 3⟩, ⟨3, 30, 3⟩]
            time := 9 } : Cache).shelf.getD i default).lastAccess) ∧
      (add { capacity := 3
             shelf := [⟨1, 10, 5⟩, ⟨2, 20, 3⟩, ⟨3, 30, 3⟩]
             time := 9 } 4 40).shelf =
        ({ capacity := 3
           shelf := [⟨1, 10, 5⟩, ⟨2, 20, 3⟩, ⟨3, 30, 3⟩]
           time := 9 } : Cache).shelf.eraseIdx k ++
          [{ id := 4, popularity := 40,
             lastAccess := ({ capacity := 3
                              shelf := [⟨1, 10, 5⟩, ⟨2, 20, 3⟩, ⟨3, 30, 3⟩]
                              time := 9 } : Cache).time }] ∧
      (add { capacity := 3
             shelf := [⟨1, 10, 5⟩, ⟨2, 20, 3⟩, ⟨3, 30, 3⟩]
             time := 9 } 4 40).shelf.length =
        ({ capacity := 3
           shelf := [⟨1, 10, 5⟩, ⟨2, 20, 3⟩, ⟨3, 30, 3⟩]
           time := 9 } : Cache).shelf.length ∧
      (add { capacity := 3
             shelf := [⟨1, 10, 5⟩, ⟨2, 20, 3⟩, ⟨3, 30, 3⟩]
             time := 9 } 4 40).time =
        ({ capacity := 3
           shelf := [⟨1, 10, 5⟩, ⟨2, 20, 3⟩, ⟨3, 30, 3⟩]
           time := 9 } : Cache).time + 1 :=
  eviction_step { capacity := 3, shelf := [⟨1, 10, 5⟩, ⟨2, 20, 3⟩, ⟨3, 30, 3⟩], time := 9 } 4 40
    (by decide) (by decide) (by decide)

end Bookshelf

namespace Bookshelf

/-! ## Filling the shelf and evicting the oldest cell -/

theorem run_append (s : Cache) (a b : List Op) : run s (a ++ b) = run (run s a) b := by
  induction a generalizing s with
  | nil => rfl
  | cons op a ih => exact ih (step s op)

theorem printed_append (s : Cache) (a b : List Op) :
    printed s (a ++ b) = printed s a ++ printed (run s a) b := by
  induction a generalizing s with
  | nil => rfl
  | cons op a ih =>
    cases op with
    | ADD x y => exact ih (add s x y)
    | ACCESS x =>
      show (access s x).2 :: printed (access s x).1 (a ++ b) = _
      rw [ih]
      rfl

theorem printed_adds (s : Cache) (items : List (Int × Int)) :
    printed s (items.map (fun q => Op.ADD q.1 q.2)) = [] := by
  induction items generalizing s with
  | nil => rfl
  | cons q items ih => exact ih (add s q.1 q.2)

theorem fill_append (t : Int) (a b : List (Int × Int)) :
    fill t (a ++ b) = fill t a ++ fill (t + a.length) b := by
  induction a generalizing t with
  | nil => simp [fill]
  | cons q a ih =>
    have h := ih (t + 1)
    have e : t + 1 + (a.length : Int) = t + ((q :: a).length : Nat) := by
      simp only [List.length_cons]; push_cast; omega
    rw [e] at h
    show fill t (q :: (a ++ b)) = fill t (q :: a) ++ fill (t + ((q :: a).length : Nat)) b
    rw [fill, fill, h, List.cons_append]

theorem fill_length (t : Int) (a : List (Int × Int)) : (fill t a).length = a.length := by
  induction a generalizing t with
  | nil => rfl
  | cons q a ih => simp [fill, ih]

theorem fill_stamp (t : Int) (a : List (Int × Int)) :
    ∀ b ∈ fill t a, t ≤ b.lastAccess := by
  induction a generalizing t with
  | nil => simp [fill]
  | cons q a ih =>
    intro b hb
    simp only [fill, List.mem_cons] at hb
    rcases hb with hb | hb
    · subst hb; exact le_rfl
    · have := ih (t + 1) b hb; omega

theorem fill_id (t : Int) (a : List (Int × Int)) :
    ∀ b ∈ fill t a, b.id ∈ a.map Prod.fst := by
  induction a generalizing t with
  | nil => simp [fill]
  | cons q a ih =>
    intro b hb
    simp only [fill, List.mem_cons] at hb
    rcases hb with hb | hb
    · subst hb; simp
    · exact List.mem_cons_of_mem _ (ih (t + 1) b hb)

theorem fill_view (t : Int) (a : List (Int × Int)) :
    (fill t a).map (fun b => (b.id, b.popularity)) = a := by
  induction a generalizing t with
  | nil => rfl
  | cons q a ih => simp [fill, ih]

/-- While there is room, `ADD` commands with pairwise distinct ids that the shelf
does not hold append their cells in order. -/
theorem run_adds_room (items : List (Int × Int)) (s : Cache)
    (hroom : (s.shelf.length : Int) + items.length ≤ s.capacity)
    (hnd : (items.map Prod.fst).Nodup)
    (hnew : ∀ q ∈ items, ∀ b ∈ s.shelf, b.id ≠ q.1) :
    run s (items.map (fun q => Op.ADD q.1 q.2)) =
      { capacity := s.capacity
        shelf := s.shelf ++ fill s.time items
        time := s.time + items.length } := by
  induction items generalizing s with
  | nil => simp [run, fill]
  | cons q items ih =>
    simp only [List.length_cons, List.map_cons, List.nodup_cons] at hroom hnd
    push_cast at hroom
    have habs : ∀ b ∈ s.shelf, b.id ≠ q.1 := hnew q (List.mem_cons_self _ _)
    have hne : (s.shelf.length : Int) ≠ s.capacity := by omega
    simp only [List.map_cons, run, step]
    rw [add_room s q.1 q.2 habs hne, ih]
    · simp only [fill, List.append_assoc, List.singleton_append, List.length_cons]
      push_cast
      rw [show s.time + 1 + (items.length : Int) = s.time + ((items.length : Int) + 1) by omega]
    · simp only [List.length_append, List.length_cons, List.length_nil]
      push_cast
      omega
    · exact hnd.2
    · intro r hr b hb
      rcases List.mem_append.1 hb with hb | hb
      · exact hnew r (List.mem_cons_of_mem _ hr) b hb
      · rw [List.mem_singleton] at hb
        subst hb
        intro heq
        apply hnd.1
        rw [show q.1 = r.1 from heq]
        exact List.mem_map_of_mem Prod.fst hr

/-- On a shelf whose first cell is strictly older than all the others the scan
ends with `minIndex = 0`. -/
theorem minIndex_head (v : Book) (post : List Book)
    (h : ∀ c ∈ post, v.lastAccess < c.lastAccess) :
    minIndex (v :: post) = 0 := by
  obtain ⟨pre, w, post2, hs, hmin, hlt, hle⟩ := minIndex_spec (v :: post) (by simp)
  cases pre with
  | nil => simpa using hmin
  | cons c pre =>
    exfalso
    simp only [List.cons_append, List.cons.injEq] at hs
    obtain ⟨hvc, hpost⟩ := hs
    have h1 := hlt c (List.mem_cons_self _ _)
    have h2 := h w (by rw [hpost]; simp)
    rw [← hvc] at h1
    omega

/-- After `ADD x0 p0` and then one `ADD` for each pair of `rest` (`capacity`
pairs, all ids pairwise distinct) the shelf holds exactly the cells of `rest`. -/
theorem run_overfill (cap x0 p0 : Int) (rest : List (Int × Int))
    (hcap : 1 ≤ cap) (hlen : (rest.length : Int) = cap)
    (hnd : (x0 :: rest.map Prod.fst).Nodup) :
    run (init cap) (Op.ADD x0 p0 :: rest.map (fun q => Op.ADD q.1 q.2)) =
      { capacity := cap, shelf := fill 2 rest, time := cap + 2 } := by
  rcases List.eq_nil_or_concat rest with hnil | ⟨mid, last, hrest⟩
  · rw [hnil] at hlen; simp at hlen; omega
  · rw [List.concat_eq_append] at hrest
    subst hrest
    simp only [List.length_append, List.length_cons, List.length_nil] at hlen
    push_cast at hlen
    have hnd2 : ((x0, p0) :: mid).map Prod.fst |>.Nodup := by
      simp only [List.map_append, List.map_cons, List.map_nil, List.nodup_cons,
        List.mem_append, List.mem_singleton, not_or, List.nodup_append] at hnd ⊢
      exact ⟨hnd.1.1, hnd.2.1⟩
    have hfront := run_adds_room ((x0, p0) :: mid) (init cap)
      (by simp only [init, List.length_nil, List.length_cons]; push_cast; omega) hnd2
      (by intro q _ b hb; simp [init] at hb)
    have hops : Op.ADD x0 p0 :: (mid ++ [last]).map (fun q => Op.ADD q.1 q.2) =
        ((x0, p0) :: mid).map (fun q => Op.ADD q.1 q.2) ++ [Op.ADD last.1 last.2] := by
      simp
    rw [hops, run_append, hfront]
    simp only [init, List.nil_append, fill, run, step]
    have hlast : ∀ b ∈ ({ id := x0, popularity := p0, lastAccess := (1 : Int) } : Book) ::
        fill (1 + 1) mid, b.id ≠ last.1 := by
      intro b hb heq
      simp only [List.map_append, List.map_cons, List.map_nil, List.nodup_cons,
        List.mem_append, List.mem_singleton, not_or, List.nodup_append] at hnd
      rcases List.mem_cons.1 hb with hb | hb
      · subst hb
        exact hnd.1.2 heq
      · have hmem := fill_id _ _ b hb
        rw [heq] at hmem
        exact hnd.2.2.2 hmem (List.mem_singleton_self _)
    have hmin : minIndex (({ id := x0, popularity := p0, lastAccess := (1 : Int) } : Book) ::
        fill (1 + 1) mid) = ([] : List Book).length := by
      apply minIndex_head
      intro c hc
      have := fill_stamp _ _ c hc
      show (1 : Int) < c.lastAccess
      omega
    rw [add_full _ last.1 last.2 [] _ (fill (1 + 1) mid) hlast
      (by simp only [List.length_cons, fill_length]; push_cast; omega) rfl hmin]
    have e2 : (1 : Int) + ((mid.length : Int) + 1) = 2 + (mid.length : Int) := by omega
    have e3 : (2 : Int) + (mid.length : Int) + 1 = cap + 2 := by omega
    simp only [List.nil_append, List.length_cons, fill_append, fill]
    push_cast
    rw [e2, e3]

end Bookshelf

namespace Bookshelf

theorem lookupPairs_absent (x : Int) (l : List (Int × Int)) (h : ∀ q ∈ l, q.1 ≠ x) :
    lookupPairs x l = -1 := by
  induction l with
  | nil => rfl
  | cons q l ih =>
    have hq : q.1 ≠ x := h q (List.mem_cons_self _ _)
    simp only [lookupPairs, hq, if_false]
    exact ih (fun r hr => h r (List.mem_cons_of_mem _ hr))

theorem lookupPairs_first (x : Int) (pre : List (Int × Int)) (r : Int × Int)
    (post : List (Int × Int)) (hpre : ∀ q ∈ pre, q.1 ≠ x) (hr : r.1 = x) :
    lookupPairs x (pre ++ r :: post) = r.2 := by
  induction pre with
  | nil => simp [lookupPairs, hr]
  | cons q pre ih =>
    have hq : q.1 ≠ x := hpre q (List.mem_cons_self _ _)
    simp only [List.cons_append, lookupPairs, hq, if_false]
    exact ih (fun r hr => hpre r (List.mem_cons_of_mem _ hr))

theorem lookupPairs_mem (l : List (Int × Int)) (q : Int × Int)
    (hnd : (l.map Prod.fst).Nodup) (hq : q ∈ l) : lookupPairs q.1 l = q.2 := by
  induction l with
  | nil => simp at hq
  | cons r l ih =>
    simp only [List.map_cons, List.nodup_cons] at hnd
    rcases List.mem_cons.1 hq with h | h
    · subst h; simp [lookupPairs]
    · have hne : r.1 ≠ q.1 := by
        intro heq
        apply hnd.1
        rw [heq]
        exact List.mem_map_of_mem Prod.fst h
      simp only [lookupPairs, hne, if_false]
      exact ih hnd.2 h

/-- The number printed by `ACCESS x` depends only on the ids and popularities. -/
theorem access_out (s : Cache) (x : Int) : (access s x).2 = lookupPairs x (view s) := by
  rcases shelf_cases s.shelf x with habs | ⟨pre, b, post, hs, hb, hpre⟩
  · rw [access_miss s x habs, lookupPairs_absent]
    intro q hq
    obtain ⟨b, hb, rfl⟩ := List.mem_map.1 hq
    exact habs b hb
  · rw [access_hit s x pre b post hs hb hpre]
    unfold view
    rw [hs, List.map_append, List.map_cons]
    rw [lookupPairs_first x _ (b.id, b.popularity) _ _ hb]
    intro q hq
    obtain ⟨c, hc, rfl⟩ := List.mem_map.1 hq
    exact hpre c hc

theorem view_access (s : Cache) (x : Int) : view (access s x).1 = view s := by
  rcases shelf_cases s.shelf x with habs | ⟨pre, b, post, hs, hb, hpre⟩
  · rw [access_miss s x habs]
  · rw [access_hit s x pre b post hs hb hpre]
    unfold view
    rw [hs]
    simp

theorem printed_accesses (s : Cache) (xs : List Int) :
    printed s (xs.map Op.ACCESS) = xs.map (fun x => lookupPairs x (view s)) := by
  induction xs generalizing s with
  | nil => rfl
  | cons x xs ih =>
    show (access s x).2 :: printed (access s x).1 (xs.map Op.ACCESS) = _
    rw [ih, view_access, access_out]
    rfl

set_option maxRecDepth 1000000 in
/-- C12, as stated, fails. With capacity 101 and the 102 pairwise distinct ids
0, 1, …, 101 added in order to the empty shelf (no `ACCESS` in between), the
101st `ADD` writes its cell at subscript 100, outside `struct Book shelf[100]`:
the commands have no defined final state, so no `ACCESS` afterwards returns the
popularity an id was added with. -/
theorem oldest_first_past_array :
    (1 : Int) ≤ 101 ∧
    (((List.range 101).map (fun (i : Nat) => ((i : Int) + 1, (10 : Int)))).length : Int) = 101 ∧
    ((0 : Int) ::
      ((List.range 101).map (fun (i : Nat) => ((i : Int) + 1, (10 : Int)))).map Prod.fst).Nodup ∧
    runChecked (init 101)
      (Op.ADD 0 10 ::
        ((List.range 101).map (fun (i : Nat) => ((i : Int) + 1, (10 : Int)))).map
          (fun q => Op.ADD q.1 q.2)) = none := by
  decide

/-- C12, amended (oldest-first eviction without touches, inside the array). For
every capacity `cap` with `1 ≤ cap ≤ 100` and `cap + 1` commands
`ADD x0 p0, ADD x1 p1, …` with pairwise distinct ids processed from the empty
shelf with no `ACCESS` in between: these commands and the `ACCESS` commands
after them stay inside the array; afterwards `ACCESS x0` misses and prints `-1`,
`ACCESS` of each other id hits and prints the popularity it was added with, and
processing `ACCESS x0, ACCESS x1, …` in that order prints `-1, p1, p2, …`. With
capacity 2, `ADD 1 10; ADD 2 20; ADD 3 30` then `ACCESS 1; ACCESS 2; ACCESS 3`
prints `-1, 20, 30`. -/
theorem oldest_first_eviction (cap x0 p0 : Int) (rest : List (Int × Int))
    (hcap : 1 ≤ cap) (h100 : cap ≤ 100) (hlen : (rest.length : Int) = cap)
    (hnd : (x0 :: rest.map Prod.fst).Nodup) :
    runChecked (init cap)
        ((Op.ADD x0 p0 :: rest.map (fun q => Op.ADD q.1 q.2)) ++
          (Op.ACCESS x0 :: rest.map (fun q => Op.ACCESS q.1)))
      = some (run (init cap)
        ((Op.ADD x0 p0 :: rest.map (fun q => Op.ADD q.1 q.2)) ++
          (Op.ACCESS x0 :: rest.map (fun q => Op.ACCESS q.1)))) ∧
    found (run (init cap) (Op.ADD x0 p0 :: rest.map (fun q => Op.ADD q.1 q.2))).shelf x0
      = none ∧
    (access (run (init cap) (Op.ADD x0 p0 :: rest.map (fun q => Op.ADD q.1 q.2))) x0).2
      = -1 ∧
    (∀ q ∈ rest,
      found (run (init cap) (Op.ADD x0 p0 :: rest.map (fun q => Op.ADD q.1 q.2))).shelf q.1
        ≠ none ∧
      (access (run (init cap) (Op.ADD x0 p0 :: rest.map (fun q => Op.ADD q.1 q.2))) q.1).2
        = q.2) ∧
    printed (init cap)
        ((Op.ADD x0 p0 :: rest.map (fun q => Op.ADD q.1 q.2)) ++
          (Op.ACCESS x0 :: rest.map (fun q => Op.ACCESS q.1)))
      = -1 :: rest.map Prod.snd ∧
    printed (init 2)
        [Op.ADD 1 10, Op.ADD 2 20, Op.ADD 3 30, Op.ACCESS 1, Op.ACCESS 2, Op.ACCESS 3]
      = [-1, 20, 30] := by
  have hrun := run_overfill cap x0 p0 rest hcap hlen hnd
  have hview : view (run (init cap) (Op.ADD x0 p0 :: rest.map (fun q => Op.ADD q.1 q.2)))
      = rest := by
    rw [hrun]; exact fill_view 2 rest
  rw [List.nodup_cons] at hnd
  have hx0 : ∀ q ∈ rest, q.1 ≠ x0 := by
    intro q hq heq
    apply hnd.1
    rw [← heq]
    exact List.mem_map_of_mem Prod.fst hq
  have habs0 : ∀ b ∈ (run (init cap)
      (Op.ADD x0 p0 :: rest.map (fun q => Op.ADD q.1 q.2))).shelf, b.id ≠ x0 := by
    intro b hb
    have hmem : (b.id, b.popularity) ∈
        view (run (init cap) (Op.ADD x0 p0 :: rest.map (fun q => Op.ADD q.1 q.2))) :=
      List.mem_map_of_mem (fun b => (b.id, b.popularity)) hb
    rw [hview] at hmem
    exact hx0 _ hmem
  refine ⟨runChecked_of_cap _ _ (inv_init cap hcap) h100,
    (found_eq_none _ x0).2 habs0, ?_, ?_, ?_, by decide⟩
  · rw [access_miss _ x0 habs0]
  · intro q hq
    constructor
    · intro hnone
      have habs := (found_eq_none _ q.1).1 hnone
      rw [← hview] at hq
      obtain ⟨b, hb, hbq⟩ := List.mem_map.1 hq
      apply habs b hb
      rw [← hbq]
    · rw [access_out, hview]
      exact lookupPairs_mem rest q hnd.2 hq
  · rw [printed_append]
    have hadds : printed (init cap) (Op.ADD x0 p0 :: rest.map (fun q => Op.ADD q.1 q.2))
        = [] := printed_adds (init cap) ((x0, p0) :: rest)
    rw [hadds, List.nil_append]
    have hacc : Op.ACCESS x0 :: rest.map (fun q => Op.ACCESS q.1) =
        (x0 :: rest.map Prod.fst).map Op.ACCESS := by
      simp
    rw [hacc, printed_accesses, hview]
    simp only [List.map_cons, List.map_map]
    rw [lookupPairs_absent x0 rest hx0]
    congr 1
    apply List.map_congr_left
    intro q hq
    exact lookupPairs_mem rest q hnd.2 hq

theorem oldest_first_eviction_witness :
    runChecked (init 3)
        ((Op.ADD 7 70 :: [((8 : Int), (80 : Int)), (9, 90), (5, 50)].map
            (fun q => Op.ADD q.1 q.2)) ++
          (Op.ACCESS 7 :: [((8 : Int), (80 : Int)), (9, 90), (5, 50)].map
            (fun q => Op.ACCESS q.1)))
      = some (run (init 3)
        ((Op.ADD 7 70 :: [((8 : Int), (80 : Int)), (9, 90), (5, 50)].map
            (fun q => Op.ADD q.1 q.2)) ++
          (Op.ACCESS 7 :: [((8 : Int), (80 : Int)), (9, 90), (5, 50)].map
            (fun q => Op.ACCESS q.1)))) ∧
    found (run (init 3)
      (Op.ADD 7 70 :: [((8 : Int), (80 : Int)), (9, 90), (5, 50)].map
        (fun q => Op.ADD q.1 q.2))).shelf 7 = none ∧
    (access (run (init 3)
      (Op.ADD 7 70 :: [((8 : Int), (80 : Int)), (9, 90), (5, 50)].map
        (fun q => Op.ADD q.1 q.2))) 7).2 = -1 ∧
    (∀ q ∈ [((8 : Int), (80 : Int)), (9, 90), (5, 50)],
      found (run (init 3)
        (Op.ADD 7 70 :: [((8 : Int), (80 : Int)), (9, 90), (5, 50)].map
          (fun q => Op.ADD q.1 q.2))).shelf q.1 ≠ none ∧
      (access (run (init 3)
        (Op.ADD 7 70 :: [((8 : Int), (80 : Int)), (9, 90), (5, 50)].map
          (fun q => Op.ADD q.1 q.2))) q.1).2 = q.2) ∧
    printed (init 3)
        ((Op.ADD 7 70 :: [((8 : Int), (80 : Int)), (9, 90), (5, 50)].map
            (fun q => Op.ADD q.1 q.2)) ++
          (Op.ACCESS 7 :: [((8 : Int), (80 : Int)), (9, 90), (5, 50)].map
            (fun q => Op.ACCESS q.1)))
      = -1 :: [((8 : Int), (80 : Int)), (9, 90), (5, 50)].map Prod.snd ∧
    printed (init 2)
        [Op.ADD 1 10, Op.ADD 2 20, Op.ADD 3 30, Op.ACCESS 1, Op.ACCESS 2, Op.ACCESS 3]
      = [-1, 20, 30] :=
  oldest_first_eviction 3 7 70 [(8, 80), (9, 90), (5, 50)] (by decide) (by decide) (by decide)
    (by decide)

end Bookshelf

namespace Bookshelf

/-- With `capacity = 0` the first `ADD` takes the eviction path with `count = 0`
and then writes the new cell at subscript `-1`. -/
theorem zero_capacity_subscript (x : Int) : addIndices (init 0) x = [-1] := by
  simp [addIndices, init, found, foundFrom, foundReads, minIndexReads, shiftReads,
    shiftWrites, insertIndex]

/-- With `capacity = 0` the first `ADD` leaves the array. -/
theorem zero_capacity_undefined (x y : Int) : stepChecked (init 0) (Op.ADD x y) = none := by
  unfold stepChecked
  rw [if_neg]
  intro h
  have hmem : (-1 : Int) ∈ stepIndices (init 0) (Op.ADD x y) := by
    show (-1 : Int) ∈ addIndices (init 0) x
    rw [zero_capacity_subscript]
    simp
  have := (h (-1) hmem).1
  omega

/-- C14, as stated, fails: no capacity is rejected. With `capacity = -1` the
shelf is created, `ADD 1 10` and `ACCESS 1` stay inside the array, `ADD 1 10`
stores a cell and `ACCESS 1` prints 10. -/
theorem nonpositive_capacity_processed :
    (init (-1)).capacity = -1 ∧
    runChecked (init (-1)) [Op.ADD 1 10, Op.ACCESS 1] =
      some (run (init (-1)) [Op.ADD 1 10, Op.ACCESS 1]) ∧
    (run (init (-1)) [Op.ADD 1 10]).shelf =
      [{ id := 1, popularity := 10, lastAccess := 1 }] ∧
    printed (init (-1)) [Op.ADD 1 10, Op.ACCESS 1] = [10] := by
  decide

theorem stepChecked_length_neg (s t : Cache) (op : Op) (hneg : s.capacity < 0)
    (hl : s.shelf.length ≤ 100) (ht : stepChecked s op = some t) :
    t.capacity < 0 ∧ t.shelf.length ≤ 100 := by
  obtain ⟨hstep, hb⟩ := stepChecked_some s t op ht
  subst hstep
  refine ⟨by rw [step_capacity]; exact hneg, ?_⟩
  have hroom : (s.shelf.length : Int) ≠ s.capacity := by omega
  cases op with
  | ACCESS x =>
    show (access s x).1.shelf.length ≤ 100
    rw [access_length]; exact hl
  | ADD x y =>
    show (add s x y).shelf.length ≤ 100
    rcases shelf_cases s.shelf x with habs | ⟨pre, b, post, hs, hb1, hpre⟩
    · have hin := (addIndices_room s x ((found_eq_none s.shelf x).2 habs) hroom).1
      have := hb (s.shelf.length : Int) hin
      rw [add_room s x y habs hroom]
      simp only [List.length_append, List.length_cons, List.length_nil]
      omega
    · rw [add_hit s x y pre b post hs hb1 hpre]
      rw [hs] at hl
      simp only [List.length_append, List.length_cons] at hl ⊢
      exact hl

theorem runChecked_length_neg (s t : Cache) (ops : List Op) (hneg : s.capacity < 0)
    (hl : s.shelf.length ≤ 100) (ht : runChecked s ops = some t) :
    t.capacity < 0 ∧ t.shelf.length ≤ 100 := by
  induction ops generalizing s with
  | nil =>
    simp only [runChecked] at ht
    rw [← Option.some.inj ht]; exact ⟨hneg, hl⟩
  | cons op ops ih =>
    simp only [runChecked] at ht
    cases hstep : stepChecked s op with
    | none => rw [hstep] at ht; cases ht
    | some u =>
      rw [hstep] at ht
      obtain ⟨hu1, hu2⟩ := stepChecked_length_neg s u op hneg hl hstep
      exact ih u hu1 hu2 ht

/-- C14, amended. The capacity is not validated: for every capacity the shelf
starts empty with clock 1 and capacity as given. For every negative capacity the
commands are processed, and in every state `s` they reach inside the array of
100 cells: the test `count == capacity` cannot hold, so the shelf holds more
cells than the capacity (and at most 100); while fewer than 100 cells are
stored, `ADD x p` of an id that no cell has stays inside the array and appends
the cell `{x, p, time}` without evicting; and whenever `x` is present or fewer
than 100 cells are stored, `ADD x p` and an `ACCESS x` right after it stay
inside the array and the `ACCESS` prints `p`. -/
theorem capacity_unchecked (cap : Int) (ops : List Op) (s : Cache) (x p : Int)
    (hneg : cap < 0) (hs : runChecked (init cap) ops = some s) :
    (∀ c : Int, (init c).capacity = c ∧ (init c).shelf = [] ∧ (init c).time = 1) ∧
    s.capacity = cap ∧ cap < (s.shelf.length : Int) ∧ s.shelf.length ≤ 100 ∧
    ((∀ b ∈ s.shelf, b.id ≠ x) → s.shelf.length < 100 →
      stepChecked s (Op.ADD x p) = some (add s x p) ∧
      (add s x p).shelf =
        s.shelf ++ [{ id := x, popularity := p, lastAccess := s.time }]) ∧
    (found s.shelf x ≠ none ∨ s.shelf.length < 100 →
      stepChecked s (Op.ADD x p) = some (add s x p) ∧
      stepChecked (add s x p) (Op.ACCESS x) = some (access (add s x p) x).1 ∧
      (access (add s x p) x).2 = p) := by
  have hc : s.capacity = cap := by
    rw [← runChecked_eq_run _ _ ops hs]; exact run_capacity (init cap) ops
  obtain ⟨_, hlen⟩ := runChecked_length_neg (init cap) s ops hneg (by simp [init]) hs
  have hne : (s.shelf.length : Int) ≠ s.capacity := by
    rw [hc]; omega
  have hroomdef : s.shelf.length < 100 → found s.shelf x = none →
      stepChecked s (Op.ADD x p) = some (add s x p) :=
    fun hl hf => stepChecked_add_room s x p hl hf hne
  refine ⟨fun c => ⟨rfl, rfl, rfl⟩, hc, by omega, hlen, ?_, ?_⟩
  · intro habs hl
    exact ⟨hroomdef hl ((found_eq_none s.shelf x).2 habs), by rw [add_room s x p habs hne]⟩
  · intro hsafe
    have hdef : stepChecked s (Op.ADD x p) = some (add s x p) := by
      by_cases hf : found s.shelf x = none
      · rcases hsafe with h | h
        · exact absurd hf h
        · exact hroomdef h hf
      · exact stepChecked_add_hit s x p hlen hf
    have hlen2 : (add s x p).shelf.length ≤ 100 :=
      (stepChecked_length_neg s (add s x p) (Op.ADD x p) (by rw [hc]; exact hneg) hlen hdef).2
    refine ⟨hdef, stepChecked_access (add s x p) x hlen2, ?_⟩
    rcases shelf_cases s.shelf x with habs | ⟨pre, b, post, hs1, hb, hpre⟩
    · exact (access_first (add s x p) x s.shelf
        { id := x, popularity := p, lastAccess := s.time } []
        (by rw [add_room _ x p habs hne]) rfl habs).2
    · exact (access_first (add s x p) x pre
        { id := b.id, popularity := p, lastAccess := s.time } post
        (by rw [add_hit _ x p pre b post hs1 hb hpre]) hb hpre).2

theorem capacity_unchecked_witness :
    (∀ c : Int, (init c).capacity = c ∧ (init c).shelf = [] ∧ (init c).time = 1) ∧
    (run (init (-2)) [Op.ADD 1 10, Op.ADD 2 20]).capacity = -2 ∧
    (-2 : Int) < ((run (init (-2)) [Op.ADD 1 10, Op.ADD 2 20]).shelf.length : Int) ∧
    (run (init (-2)) [Op.ADD 1 10, Op.ADD 2 20]).shelf.length ≤ 100 ∧
    (stepChecked (run (init (-2)) [Op.ADD 1 10, Op.ADD 2 20]) (Op.ADD 3 30) =
        some (add (run (init (-2)) [Op.ADD 1 10, Op.ADD 2 20]) 3 30) ∧
      (add (run (init (-2)) [Op.ADD 1 10, Op.ADD 2 20]) 3 30).shelf =
        (run (init (-2)) [Op.ADD 1 10, Op.ADD 2 20]).shelf ++
          [{ id := 3, popularity := 30,
             lastAccess := (run (init (-2)) [Op.ADD 1 10, Op.ADD 2 20]).time }]) ∧
    (stepChecked (run (init (-2)) [Op.ADD 1 10, Op.ADD 2 20]) (Op.ADD 3 30) =
        some (add (run (init (-2)) [Op.ADD 1 10, Op.ADD 2 20]) 3 30) ∧
      stepChecked (add (run (init (-2)) [Op.ADD 1 10, Op.ADD 2 20]) 3 30) (Op.ACCESS 3) =
        some (access (add (run (init (-2)) [Op.ADD 1 10, Op.ADD 2 20]) 3 30) 3).1 ∧
      (access (add (run (init (-2)) [Op.ADD 1 10, Op.ADD 2 20]) 3 30) 3).2 = 30) :=
  ⟨(capacity_unchecked (-2) [Op.ADD 1 10, Op.ADD 2 20]
      (run (init (-2)) [Op.ADD 1 10, Op.ADD 2 20]) 3 30 (by decide) (by decide)).1,
   (capacity_unchecked (-2) [Op.ADD 1 10, Op.ADD 2 20]
      (run (init (-2)) [Op.ADD 1 10, Op.ADD 2 20]) 3 30 (by decide) (by decide)).2.1,
   (capacity_unchecked (-2) [Op.ADD 1 10, Op.ADD 2 20]
      (run (init (-2)) [Op.ADD 1 10, Op.ADD 2 20]) 3 30 (by decide) (by decide)).2.2.1,
   (capacity_unchecked (-2) [Op.ADD 1 10, Op.ADD 2 20]
      (run (init (-2)) [Op.ADD 1 10, Op.ADD 2 20]) 3 30 (by decide) (by decide)).2.2.2.1,
   (capacity_unchecked (-2) [Op.ADD 1 10, Op.ADD 2 20]
      (run (init (-2)) [Op.ADD 1 10, Op.ADD 2 20]) 3 30 (by decide) (by decide)).2.2.2.2.1
      (by decide) (by decide),
   (capacity_unchecked (-2) [Op.ADD 1 10, Op.ADD 2 20]
      (run (init (-2)) [Op.ADD 1 10, Op.ADD 2 20]) 3 30 (by decide) (by decide)).2.2.2.2.2
      (Or.inr (by decide))⟩

/-- C15 (storage indices stay in bounds). For every capacity with
`1 ≤ capacity ≤ 100` and every state `s` reached from the empty shelf: `count`
lies in `0 .. capacity`; every subscript at which the next command, whatever it
is, reads or writes `shelf` lies in `0 .. 99`; the subscript at which an insert
writes the new cell is below `capacity`; and every subscript `j + 1` read by the
compaction loop is below `count`. -/
theorem indices_in_bounds (cap : Int) (ops : List Op) (s : Cache)
    (h1 : 1 ≤ cap) (h100 : cap ≤ 100) (hs : run (init cap) ops = s) :
    (0 ≤ (s.shelf.length : Int) ∧ (s.shelf.length : Int) ≤ cap) ∧
    (∀ (op : Op), ∀ i ∈ stepIndices s op, 0 ≤ i ∧ i ≤ 99) ∧
    (0 ≤ insertIndex s ∧ insertIndex s < cap) ∧
    (∀ i ∈ shiftReads (s.shelf.length - 1 - minIndex s.shelf) (minIndex s.shelf),
      1 ≤ i ∧ i < (s.shelf.length : Int)) := by
  have hinv : Inv s := hs ▸ inv_reach cap h1 ops
  have hc : s.capacity = cap := by rw [← hs]; exact run_capacity (init cap) ops
  obtain ⟨hcap, hsize, _, _, _⟩ := hinv
  rw [hc] at hsize hcap
  refine ⟨⟨by omega, hsize⟩, ?_, ?_, ?_⟩
  · intro op i hi
    have := stepIndices_bound s op (hs ▸ inv_reach cap h1 ops) i hi
    rw [hc] at this
    omega
  · unfold insertIndex
    rw [hc]
    split <;> omega
  · intro i hi
    have hb := shiftReads_bound _ _ i hi
    by_cases hne : s.shelf = []
    · rw [hne] at hi
      simp [shiftReads] at hi
    · have hk := (minIndex_index_spec s.shelf hne).1
      omega

theorem indices_in_bounds_witness :
    (0 ≤ ((run (init 2) [Op.ADD 1 10, Op.ADD 2 20, Op.ACCESS 1]).shelf.length : Int) ∧
      ((run (init 2) [Op.ADD 1 10, Op.ADD 2 20, Op.ACCESS 1]).shelf.length : Int) ≤ 2) ∧
    (∀ (op : Op), ∀ i ∈ stepIndices (run (init 2) [Op.ADD 1 10, Op.ADD 2 20, Op.ACCESS 1]) op,
      0 ≤ i ∧ i ≤ 99) ∧
    (0 ≤ insertIndex (run (init 2) [Op.ADD 1 10, Op.ADD 2 20, Op.ACCESS 1]) ∧
      insertIndex (run (init 2) [Op.ADD 1 10, Op.ADD 2 20, Op.ACCESS 1]) < 2) ∧
    (∀ i ∈ shiftReads
        ((run (init 2) [Op.ADD 1 10, Op.ADD 2 20, Op.ACCESS 1]).shelf.length - 1 -
          minIndex (run (init 2) [Op.ADD 1 10, Op.ADD 2 20, Op.ACCESS 1]).shelf)
        (minIndex (run (init 2) [Op.ADD 1 10, Op.ADD 2 20, Op.ACCESS 1]).shelf),
      1 ≤ i ∧ i < ((run (init 2) [Op.ADD 1 10, Op.ADD 2 20, Op.ACCESS 1]).shelf.length : Int)) :=
  indices_in_bounds 2 [Op.ADD 1 10, Op.ADD 2 20, Op.ACCESS 1]
    (run (init 2) [Op.ADD 1 10, Op.ADD 2 20, Op.ACCESS 1]) (by decide) (by decide) rfl

end Bookshelf

namespace Editor

/-! ## Line buffer -/

theorem size_nonneg (b : LineBuffer) : 0 ≤ b.size := by
  unfold LineBuffer.size
  omega

/-- C16, as stated, fails on an empty buffer. Right after `initBuffer` the size
is 0 and the capacity is 4; `shrinkToFit` leaves the capacity at 4, not at the
size. With size 0 and capacity 8 the capacity becomes 4, and with size 0 and
capacity 1 it grows to 4. -/
theorem shrinkToFit_empty_keeps_cells :
    initBuffer.size ≤ initBuffer.capacity ∧
    (shrinkToFit initBuffer).size = 0 ∧ (shrinkToFit initBuffer).capacity = 4 ∧
    (shrinkToFit initBuffer).capacity ≠ (shrinkToFit initBuffer).size ∧
    (shrinkToFit { lines := [], capacity := 8 }).capacity = 4 ∧
    (shrinkToFit { lines := [], capacity := 1 }).capacity = 4 := by
  decide

/-- C16, amended. For every line buffer with `size ≤ capacity`, `shrinkToFit`
leaves the lines and the size unchanged; if the size is at least 1 the capacity
afterwards equals the size; if the size is 0 the capacity afterwards is
`INITIAL_CAPACITY` (4), unless it was 0 already, in which case it stays 0. -/
theorem shrinkToFit_spec (b : LineBuffer) (hle : b.size ≤ b.capacity) :
    (shrinkToFit b).lines = b.lines ∧ (shrinkToFit b).size = b.size ∧
    (1 ≤ b.size → (shrinkToFit b).capacity = b.size) ∧
    (b.size = 0 → b.capacity ≠ 0 → (shrinkToFit b).capacity = INITIAL_CAPACITY) ∧
    (b.size = 0 → b.capacity = 0 → (shrinkToFit b).capacity = 0) ∧
    (shrinkToFit b).size ≤ (shrinkToFit b).capacity := by
  have h0 := size_nonneg b
  by_cases h1 : b.capacity = b.size
  · have e : shrinkToFit b = b := by
      unfold shrinkToFit; rw [if_pos h1]
    rw [e]
    refine ⟨rfl, rfl, fun _ => h1, ?_, ?_, hle⟩
    · intro hs hc; rw [h1] at hc; exact absurd hs hc
    · intro _ hc; exact hc
  · by_cases h2 : b.size = 0
    · have e : shrinkToFit b = { lines := b.lines, capacity := INITIAL_CAPACITY } := by
        unfold shrinkToFit; rw [if_neg h1, if_pos h2]
      rw [e]
      refine ⟨rfl, rfl, ?_, fun _ _ => rfl, ?_, ?_⟩
      · intro h; omega
      · intro _ hc; rw [hc, h2] at h1; exact absurd rfl h1
      · show b.size ≤ INITIAL_CAPACITY
        rw [h2]
        decide
    · have e : shrinkToFit b = { lines := b.lines, capacity := b.size } := by
        unfold shrinkToFit; rw [if_neg h1, if_neg h2]
      rw [e]
      exact ⟨rfl, rfl, fun _ => rfl, fun h => absurd h h2, fun h => absurd h h2, le_refl _⟩

theorem shrinkToFit_spec_witness :
    (shrinkToFit { lines := ["a", "b", "c"], capacity := 8 }).lines = ["a", "b", "c"] ∧
    (shrinkToFit { lines := ["a", "b", "c"], capacity := 8 }).size =
      LineBuffer.size { lines := ["a", "b", "c"], capacity := 8 } ∧
    (shrinkToFit { lines := ["a", "b", "c"], capacity := 8 }).capacity =
      LineBuffer.size { lines := ["a", "b", "c"], capacity := 8 } ∧
    (shrinkToFit { lines := ["a", "b", "c"], capacity := 8 }).size ≤
      (shrinkToFit { lines := ["a", "b", "c"], capacity := 8 }).capacity :=
  ⟨(shrinkToFit_spec { lines := ["a", "b", "c"], capacity := 8 } (by decide)).1,
   (shrinkToFit_spec { lines := ["a", "b", "c"], capacity := 8 } (by decide)).2.1,
   (shrinkToFit_spec { lines := ["a", "b", "c"], capacity := 8 } (by decide)).2.2.1 (by decide),
   (shrinkToFit_spec { lines := ["a", "b", "c"], capacity := 8 } (by decide)).2.2.2.2.2⟩

theorem memmoveUp_set (l : List String) (n : Nat) (t : String) (hn : n < l.length) :
    (memmoveUp l n).set n t = l.take n ++ [t] ++ l.drop n := by
  induction l generalizing n with
  | nil => simp at hn
  | cons a l ih =>
    cases n with
    | zero => simp [memmoveUp]
    | succ k =>
      have hk : k < l.length := by simpa using hn
      have := ih k hk
      simp only [memmoveUp] at this ⊢
      simp only [List.take_succ_cons, List.drop_succ_cons, List.cons_append, List.set_cons_succ,
        this]

theorem wrap_of_fits (x : Int) (h1 : -2147483648 ≤ x) (h2 : x ≤ 2147483647) :
    MachineInt.wrap x = x := by
  unfold MachineInt.wrap
  omega

theorem wrap_range (x : Int) :
    -2147483648 ≤ MachineInt.wrap x ∧ MachineInt.wrap x ≤ 2147483647 := by
  unfold MachineInt.wrap
  omega

/-- Once `newCap` is 0 the growth loop of line 73 never reaches a positive
`minCapacity`. -/
theorem growLoop_zero (fuel : Nat) (m : Int) (hm : 0 < m) : growLoop fuel 0 m = none := by
  induction fuel with
  | zero => simp [growLoop, hm]
  | succ f ih =>
    have h0 : MachineInt.wrap (0 * GROW_FACTOR) = 0 := by decide
    rw [growLoop, if_pos hm, h0]
    exact ih

/-- From `newCap = 2^30` the doubling overflows `int` (`2^30 * 2` wraps to
`INT_MIN`, `INT_MIN * 2` wraps to 0) and the loop of line 73 does not end. -/
theorem growLoop_overflow (fuel : Nat) : growLoop fuel 1073741824 1073741825 = none := by
  have h1 : MachineInt.wrap (1073741824 * GROW_FACTOR) = -2147483648 := by decide
  have h2 : MachineInt.wrap (-2147483648 * GROW_FACTOR) = 0 := by decide
  cases fuel with
  | zero => decide
  | succ f =>
    rw [growLoop, if_pos (by decide), h1]
    cases f with
    | zero => decide
    | succ g =>
      rw [growLoop, if_pos (by decide), h2]
      exact growLoop_zero g _ (by decide)

theorem ensureCapacity_none (fuel : Nat) (b : LineBuffer) (m : Int)
    (h : ¬ b.capacity ≥ m) (hg : growLoop fuel b.capacity m = none) :
    ensureCapacity fuel b m = none := by
  unfold ensureCapacity
  rw [if_neg h, hg]

theorem insertLine_none (fuel : Nat) (b : LineBuffer) (index : Int) (text : String)
    (hr : ¬ (index < 0 ∨ index > b.size))
    (he : ensureCapacity fuel b (MachineInt.wrap (b.size + 1)) = none) :
    insertLine fuel b index text = none := by
  unfold insertLine
  rw [if_neg hr, he]

theorem size_replicate :
    LineBuffer.size { lines := List.replicate 1073741824 "", capacity := 1073741824 } =
      1073741824 := by
  unfold LineBuffer.size
  rw [List.length_replicate]
  rfl

/-- C17, as stated, fails. On a buffer with `size = capacity = 2^30` (so
`size ≤ capacity` and `capacity ≥ 1`) `insertLine` at index 0, which is in
range, does not return: `ensureCapacity` has to grow the array,
`newCap *= GROW_FACTOR` overflows `int` and the loop of line 73 never ends,
whatever number of iterations is allowed. -/
theorem insertLine_overflow :
    LineBuffer.size { lines := List.replicate 1073741824 "", capacity := 1073741824 } =
      1073741824 ∧
    LineBuffer.capacity { lines := List.replicate 1073741824 "", capacity := 1073741824 } =
      1073741824 ∧
    ¬ ∃ (fuel : Nat) (b1 : LineBuffer),
      insertLine fuel { lines := List.replicate 1073741824 "", capacity := 1073741824 } 0 "x" =
        some b1 := by
  refine ⟨size_replicate, rfl, ?_⟩
  rintro ⟨fuel, b1, hsome⟩
  have hnone : insertLine fuel
      { lines := List.replicate 1073741824 "", capacity := 1073741824 } 0 "x" = none := by
    have hw : MachineInt.wrap (1073741824 + 1) = 1073741825 := by decide
    apply insertLine_none
    · rw [size_replicate]; decide
    · rw [size_replicate, hw]
      apply ensureCapacity_none
      · show ¬ ((1073741824 : Int) ≥ 1073741825)
        decide
      · exact growLoop_overflow fuel
  rw [hnone] at hsome
  cases hsome

/-- With one iteration available, `ensureCapacity(b, size + 1)` returns on a
buffer with `size ≤ capacity`, `1 ≤ capacity ≤ INT_MAX` and `size < capacity` or
`capacity < 2^30`: the lines are kept and the new capacity is at least
`size + 1`. -/
theorem ensureCapacity_succ (fuel : Nat) (b : LineBuffer) (hle : b.size ≤ b.capacity)
    (hcap : 1 ≤ b.capacity) (hmax : b.capacity ≤ 2147483647)
    (hgrow : b.size < b.capacity ∨ b.capacity < 1073741824) (hfuel : 1 ≤ fuel) :
    ∃ b1, ensureCapacity fuel b (MachineInt.wrap (b.size + 1)) = some b1 ∧
      b1.lines = b.lines ∧ b.size + 1 ≤ b1.capacity := by
  have h0 := size_nonneg b
  have hw : MachineInt.wrap (b.size + 1) = b.size + 1 := by
    apply wrap_of_fits <;> omega
  rw [hw]
  unfold ensureCapacity
  by_cases h : b.capacity ≥ b.size + 1
  · simp only [h, if_true]
    exact ⟨b, rfl, rfl, h⟩
  · simp only [h, if_false]
    obtain ⟨f, rfl⟩ : ∃ f, fuel = f + 1 := ⟨fuel - 1, by omega⟩
    have hlt : b.capacity < b.size + 1 := by omega
    have hsmall : b.capacity < 1073741824 := by omega
    have hw2 : MachineInt.wrap (b.capacity * GROW_FACTOR) = b.capacity * GROW_FACTOR := by
      apply wrap_of_fits <;> (unfold GROW_FACTOR; omega)
    have hdone : ¬ (b.capacity * GROW_FACTOR < b.size + 1) := by
      unfold GROW_FACTOR; omega
    have hgrow2 : growLoop (f + 1) b.capacity (b.size + 1) =
        some (b.capacity * GROW_FACTOR) := by
      rw [growLoop, if_pos hlt, hw2]
      cases f with
      | zero => rw [growLoop, if_neg hdone]
      | succ g => rw [growLoop, if_neg hdone]
    rw [hgrow2]
    refine ⟨_, rfl, rfl, ?_⟩
    show b.size + 1 ≤ b.capacity * GROW_FACTOR
    unfold GROW_FACTOR; omega

/-- C17, amended (insertLine inserts at a 0-based index). For every buffer with
lines `L` of size `n` (`size ≤ capacity`, `1 ≤ capacity ≤ INT_MAX`, and
`size < capacity` or `capacity < 2^30`, so that no growth is needed or the
doubled capacity is an `int`) and every text `t`: for every index `i` with
`0 ≤ i ≤ n`, `insertLine` returns (one iteration of the growth loop suffices)
and the lines afterwards are the first `i` lines of `L`, then `t`, then the
remaining `n - i` lines of `L`, the size is `n + 1` and it is at most the
capacity; for every index `i < 0` or `i > n` the buffer is returned
unchanged. -/
theorem insertLine_spec (b : LineBuffer) (t : String) (i : Int) (fuel : Nat)
    (hle : b.size ≤ b.capacity) (hcap : 1 ≤ b.capacity) (hmax : b.capacity ≤ 2147483647)
    (hgrow : b.size < b.capacity ∨ b.capacity < 1073741824) (hfuel : 1 ≤ fuel) :
    (0 ≤ i → i ≤ b.size →
      ∃ b1, insertLine fuel b i t = some b1 ∧
        b1.lines = b.lines.take i.toNat ++ [t] ++ b.lines.drop i.toNat ∧
        b1.size = b.size + 1 ∧ b1.size ≤ b1.capacity) ∧
    (i < 0 ∨ i > b.size → insertLine fuel b i t = some b) := by
  constructor
  · intro hi0 hin
    obtain ⟨b1, hens, hlines, hc1⟩ := ensureCapacity_succ fuel b hle hcap hmax hgrow hfuel
    have hrange : ¬ (i < 0 ∨ i > b.size) := by omega
    have hsz : b1.size = b.size := by unfold LineBuffer.size; rw [hlines]
    unfold insertLine
    simp only [hrange, if_false, hens]
    have hlen : (b.lines.length : Int) = b.size := rfl
    by_cases hlt : i < b1.size
    · simp only [hlt, if_true]
      have hn : i.toNat < b.lines.length := by omega
      refine ⟨_, rfl, ?_, ?_, ?_⟩
      · show (memmoveUp b1.lines i.toNat).set i.toNat t = _
        rw [hlines]
        exact memmoveUp_set b.lines i.toNat t hn
      · show ((List.set _ _ _).length : Int) = _
        rw [List.length_set, hlines]
        unfold memmoveUp
        rw [List.length_append, List.length_take, List.length_drop]
        omega
      · show ((List.set _ _ _).length : Int) ≤ b1.capacity
        rw [List.length_set, hlines]
        unfold memmoveUp
        rw [List.length_append, List.length_take, List.length_drop]
        omega
    · simp only [hlt, if_false]
      have hn : i.toNat = b.lines.length := by omega
      refine ⟨_, rfl, ?_, ?_, ?_⟩
      · show b1.lines ++ [t] = _
        rw [hlines, hn]
        simp
      · show ((b1.lines ++ [t]).length : Int) = _
        rw [hlines, List.length_append]
        simp only [List.length_cons, List.length_nil]
        omega
      · show ((b1.lines ++ [t]).length : Int) ≤ b1.capacity
        rw [hlines, List.length_append]
        simp only [List.length_cons, List.length_nil]
        omega
  · intro h
    unfold insertLine
    simp only [h, if_true]

theorem insertLine_spec_witness :
    (∃ b1, insertLine 1 { lines := ["a", "b", "c", "d"], capacity := 4 } 1 "x" = some b1 ∧
        b1.lines = ["a", "b", "c", "d"].take (1 : Int).toNat ++ ["x"] ++
          ["a", "b", "c", "d"].drop (1 : Int).toNat ∧
        b1.size = LineBuffer.size { lines := ["a", "b", "c", "d"], capacity := 4 } + 1 ∧
        b1.size ≤ b1.capacity) ∧
    insertLine 1 { lines := ["a", "b", "c", "d"], capacity := 4 } 5 "x" =
      some { lines := ["a", "b", "c", "d"], capacity := 4 } :=
  ⟨(insertLine_spec { lines := ["a", "b", "c", "d"], capacity := 4 } "x" 1 1
      (by decide) (by decide) (by decide) (Or.inr (by decide)) (by decide)).1
      (by decide) (by decide),
   (insertLine_spec { lines := ["a", "b", "c", "d"], capacity := 4 } "x" 5 1
      (by decide) (by decide) (by decide) (Or.inr (by decide)) (by decide)).2
      (Or.inr (by decide))⟩

end Editor

namespace Mission

/-! ## Fuel simulation -/

theorem wrap_fits (x : Int) (h : MachineInt.fits x) : MachineInt.wrap x = x := by
  unfold MachineInt.fits at h
  unfold MachineInt.wrap
  omega

theorem wrap_in_range (x : Int) :
    -2147483648 ≤ MachineInt.wrap x ∧ MachineInt.wrap x ≤ 2147483647 := by
  unfold MachineInt.wrap
  omega

/-- With `totalPlanets = INT_MAX`, no consumption and one unit of fuel the test
`planet > totalPlanets` never holds and the fuel never runs out: no number of
nested calls suffices. -/
theorem calculateFuel_endless (depth : Nat) :
    ∀ planet : Int, planet ≤ 2147483647 →
      calculateFuel depth 1 0 0 0 planet 2147483647 = none := by
  induction depth with
  | zero => intro planet _; rfl
  | succ d ih =>
    intro planet hp
    have h1 : ¬ ((1 : Int) ≤ 0) := by decide
    have h2 : ¬ (planet > 2147483647) := by omega
    have h3 : MachineInt.wrap (1 - 0) = 1 := by decide
    have h4 : MachineInt.wrap (1 + 0) = 1 := by decide
    have hnext := ih (MachineInt.wrap (planet + 1)) (wrap_in_range (planet + 1)).2
    simp only [calculateFuel, h1, h2, h3, h4, if_false]
    split_ifs <;> exact hnext

/-- C19, as stated, fails. The arguments (1, 0, 0, 0, 1, INT_MAX) are integers
of type `int`, yet the recursion does not terminate: `planet > totalPlanets` can
never hold, `planet + 1` overflows, and for every bound on the number of nested
calls the function has not returned. -/
theorem calculateFuel_diverges :
    ¬ ∃ (depth : Nat) (r : Int), calculateFuel depth 1 0 0 0 1 2147483647 = some r := by
  rintro ⟨depth, r, h⟩
  rw [calculateFuel_endless depth 1 (by decide)] at h
  cases h

theorem calculateFuel_returns (c r b total : Int) (htot : total < 2147483647) (n : Nat) :
    ∀ (fuel planet : Int) (depth : Nat), -2147483648 ≤ planet →
      (total + 1 - planet).toNat ≤ n → n < depth →
      calculateFuel depth fuel c r b planet total = some 0 ∨
      calculateFuel depth fuel c r b planet total = some 1 := by
  induction n with
  | zero =>
    intro fuel planet depth _ hm hd
    obtain ⟨d, rfl⟩ : ∃ d, depth = d + 1 := ⟨depth - 1, by omega⟩
    simp only [calculateFuel]
    by_cases hf : fuel ≤ 0
    · simp [hf]
    · have hp : planet > total := by omega
      simp [hf, hp]
  | succ n ih =>
    intro fuel planet depth hlo hm hd
    obtain ⟨d, rfl⟩ : ∃ d, depth = d + 1 := ⟨depth - 1, by omega⟩
    simp only [calculateFuel]
    have hd1 : n < d := by omega
    by_cases hf : fuel ≤ 0
    · simp [hf]
    · by_cases hp : planet > total
      · simp [hf, hp]
      · have hw : MachineInt.wrap (planet + 1) = planet + 1 := by
          apply wrap_fits
          unfold MachineInt.fits
          omega
        have hm1 : (total + 1 - (planet + 1)).toNat ≤ n := by omega
        have hlo1 : -2147483648 ≤ planet + 1 := by omega
        simp only [hf, hp, if_false, hw]
        split_ifs
        · exact ih _ _ d hlo1 hm1 hd1
        · exact ih _ _ d hlo1 hm1 hd1
        · exact ih _ _ d hlo1 hm1 hd1

/-- C19, amended (calculateFuel is total when `planet + 1` cannot overflow). For
all `int` arguments with `totalPlanets < INT_MAX` (and `planet ≥ INT_MIN`, as
for every `int`), a budget of nested calls larger than
`totalPlanets + 1 - planet` suffices for `calculateFuel` to return, and the
value returned is 0 or 1. When `fuel ≤ 0` or `planet > totalPlanets` the
function returns without a nested call; otherwise its value is that of one
nested call, made with `planet + 1`, for which the measure
`totalPlanets + 1 - planet` is strictly smaller. -/
theorem calculateFuel_total (fuel consumption recharge solarBonus planet totalPlanets : Int)
    (depth : Nat) (htot : totalPlanets < 2147483647) (hlo : -2147483648 ≤ planet)
    (hdepth : (totalPlanets + 1 - planet).toNat < depth) :
    (calculateFuel depth fuel consumption recharge solarBonus planet totalPlanets = some 0 ∨
      calculateFuel depth fuel consumption recharge solarBonus planet totalPlanets = some 1) ∧
    (fuel ≤ 0 ∨ planet > totalPlanets →
      calculateFuel 1 fuel consumption recharge solarBonus planet totalPlanets ≠ none) ∧
    (0 < fuel → planet ≤ totalPlanets →
      (∃ fuel1 : Int,
        calculateFuel depth fuel consumption recharge solarBonus planet totalPlanets =
          calculateFuel (depth - 1) fuel1 consumption recharge solarBonus (planet + 1)
            totalPlanets) ∧
      (totalPlanets + 1 - (planet + 1)).toNat < (totalPlanets + 1 - planet).toNat) := by
  refine ⟨calculateFuel_returns consumption recharge solarBonus totalPlanets htot _ fuel planet
    depth hlo (le_refl _) hdepth, ?_, ?_⟩
  · intro h
    simp only [calculateFuel]
    by_cases hf : fuel ≤ 0
    · simp [hf]
    · have hp : planet > totalPlanets := by omega
      simp [hf, hp]
  · intro hf hp
    obtain ⟨d, rfl⟩ : ∃ d, depth = d + 1 := ⟨depth - 1, by omega⟩
    refine ⟨?_, by omega⟩
    have hf1 : ¬ fuel ≤ 0 := by omega
    have hp1 : ¬ planet > totalPlanets := by omega
    have hw : MachineInt.wrap (planet + 1) = planet + 1 := by
      apply wrap_fits
      unfold MachineInt.fits
      omega
    simp only [calculateFuel, hf1, hp1, if_false, Nat.add_sub_cancel, hw]
    split_ifs
    · exact ⟨_, rfl⟩
    · exact ⟨_, rfl⟩
    · exact ⟨_, rfl⟩

theorem calculateFuel_total_witness :
    (calculateFuel 12 500 60 20 50 1 10 = some 0 ∨ calculateFuel 12 500 60 20 50 1 10 = some 1) ∧
    (∃ fuel1 : Int,
      calculateFuel 12 500 60 20 50 1 10 = calculateFuel (12 - 1) fuel1 60 20 50 (1 + 1) 10) ∧
    ((10 : Int) + 1 - (1 + 1)).toNat < ((10 : Int) + 1 - 1).toNat :=
  ⟨(calculateFuel_total 500 60 20 50 1 10 12 (by decide) (by decide) (by decide)).1,
   ((calculateFuel_total 500 60 20 50 1 10 12 (by decide) (by decide) (by decide)).2.2
      (by decide) (by decide)).1,
   ((calculateFuel_total 500 60 20 50 1 10 12 (by decide) (by decide) (by decide)).2.2
      (by decide) (by decide)).2⟩

end Mission
